import Mathlib

/-!
Formal model of the LaTeX equation colorizer (src/main.py and
src/wikipedia_handler.py).

Strings are modelled as lists of characters (`Str`).  Every Python
regular-expression operation used by the program is embedded as an explicit
character-scanning function implementing that one concrete pattern, with
`re.finditer` modelled as a left-to-right non-overlapping scan and `re.sub`
as a left-to-right single-pass rewrite that continues after each match in
the original string.  Inputs in this development are ASCII, so the Python
character class for word characters is modelled by ASCII letters, digits
and underscore.
-/

abbrev Str := List Char

def chars (s : String) : Str := s.data

/-- Python word characters, restricted to ASCII as used by this program. -/
def isWordChar (c : Char) : Bool := c.isAlpha || c.isDigit || c == '_'

/-- Python whitespace characters matched by a whitespace class. -/
def isPySpace (c : Char) : Bool :=
  c == ' ' || c == '\t' || c == '\n' || c == '\r' || c == '\x0b' || c == '\x0c'

/-! ## The recognizer patterns of LatexParser.identify_variables (main.py 117-121) -/

/-- Negative lookbehind of the bare-symbol pattern: the previous character
must not be a backslash or a word character (start of string passes). -/
def okBehind : Option Char → Bool
  | none => true
  | some c => !(c == '\\' || isWordChar c)

/-- Negative lookahead of the bare-symbol pattern in identify_variables:
the next character must not be a word character or an opening brace. -/
def okAheadId : Option Char → Bool
  | none => true
  | some c => !(isWordChar c || c == '\x7b')

/-- Scan for the bare-symbol pattern of identify_variables: a latin letter
neither preceded by a backslash or word character nor followed by a word
character or opening brace.  Matches have length one, so the
non-overlapping scan visits every position. -/
def scanSingleAux : Option Char → Str → List Str
  | _, [] => []
  | prev, c :: rest =>
    if c.isAlpha && okBehind prev && okAheadId rest.head? then
      [c] :: scanSingleAux (some c) rest
    else
      scanSingleAux (some c) rest

/-- Split a string at the first closing brace: returns the maximal prefix
without a closing brace together with the remainder after that brace. -/
def splitAtBrace : Str → Option (Str × Str)
  | [] => none
  | c :: rest =>
    if c == '\x7d' then some ([], rest)
    else
      match splitAtBrace rest with
      | some (content, r) => some (c :: content, r)
      | none => none

/-- Try the subscript pattern of identify_variables at the head of the
string: a letter followed by an underscore and either a braced non-empty
token or a single digit.  Returns the stored variable name (the code
stores the digit case with braces added) and the number of characters
consumed. -/
def trySubMatch : Str → Option (Str × Nat)
  | b :: '_' :: c :: rest =>
    if b.isAlpha then
      if c == '\x7b' then
        match splitAtBrace rest with
        | some (content, _) =>
          if content.isEmpty then none
          else some (b :: '_' :: '\x7b' :: (content ++ ['\x7d']), content.length + 4)
        | none => none
      else if c.isDigit then
        some ([b, '_', '\x7b', c, '\x7d'], 3)
      else none
    else none
  | _ => none

/-- Maximal run of latin letters at the head of the string, with the rest. -/
def alphaRun : Str → Str × Str
  | [] => ([], [])
  | c :: rest =>
    if c.isAlpha then
      let (run, r) := alphaRun rest
      (c :: run, r)
    else ([], c :: rest)

/-- The command names excluded by the negative lookahead of the greek
pattern of identify_variables. -/
def greekExcluded : List Str :=
  [chars ("left"), chars ("right"), chars ("begin"), chars ("end"),
   chars ("boldsymbol"), chars ("mathbf"), chars ("vec")]

def startsWithAny (pats : List Str) (s : Str) : Bool :=
  pats.any (fun p => p.isPrefixOf s)

/-- Try the greek pattern of identify_variables at the head of the string:
a backslash not followed by one of the excluded command names, then a
maximal non-empty run of letters (the trailing negative lookahead is
automatic for a maximal run).  The stored variable keeps the backslash. -/
def tryGreekMatch : Str → Option (Str × Nat)
  | '\\' :: rest =>
    if startsWithAny greekExcluded rest then none
    else
      let (run, _) := alphaRun rest
      if run.isEmpty then none
      else some ('\\' :: run, run.length + 1)
  | _ => none

/-- After a vector wrapping command: an opening brace, a letter, further
non-brace characters, and a closing brace.  Returns the braced content and
the number of characters consumed from the brace on. -/
def tryVecAfterCmd : Str → Option (Str × Nat)
  | '\x7b' :: c :: rest =>
    if c.isAlpha then
      match splitAtBrace rest with
      | some (content, _) => some (c :: content, content.length + 3)
      | none => none
    else none
  | _ => none

def tryVecCmd (cmd : Str) (rest : Str) : Option (Str × Nat) :=
  if cmd.isPrefixOf rest then
    match tryVecAfterCmd (rest.drop cmd.length) with
    | some (content, len) => some (content, cmd.length + 1 + len)
    | none => none
  else none

/-- Try the vector pattern of identify_variables at the head of the
string: a backslash, one of the three wrapping commands, and a braced
content beginning with a letter.  The stored variable is the content. -/
def tryVecMatch : Str → Option (Str × Nat)
  | '\\' :: rest =>
    match tryVecCmd (chars ("boldsymbol")) rest with
    | some r => some r
    | none =>
      match tryVecCmd (chars ("mathbf")) rest with
      | some r => some r
      | none => tryVecCmd (chars ("vec")) rest
  | _ => none

/-- Left-to-right non-overlapping scan collecting the variables stored by
one pattern, continuing after each match as re.finditer does.  The fuel is
the length of the input, which suffices because each step consumes at
least one character. -/
def scanAux (tm : Str → Option (Str × Nat)) : Nat → Str → List Str
  | 0, _ => []
  | fuel + 1, s =>
    match s with
    | [] => []
    | _ :: rest =>
      match tm s with
      | some (v, len) => v :: scanAux tm fuel (s.drop len)
      | none => scanAux tm fuel rest

/-- Membership in a Python set, rendered as a duplicate-free list in first
insertion order. -/
def addUniq (acc : List Str) (x : Str) : List Str :=
  if x ∈ acc then acc else acc ++ [x]

def dedupKeepFirst (l : List Str) : List Str := l.foldl addUniq []

/-- The four role sets produced by LatexParser.identify_variables. -/
structure Variables where
  single : List Str
  subscript : List Str
  greek : List Str
  vector : List Str
deriving Repr, DecidableEq

/-- LatexParser.identify_variables (main.py 105-141): run the four role
patterns over the equation and collect the stored variable names. -/
def identify_variables (latex : Str) : Variables :=
  { single := dedupKeepFirst (scanSingleAux none latex)
  , subscript := dedupKeepFirst (scanAux trySubMatch latex.length latex)
  , greek := dedupKeepFirst (scanAux tryGreekMatch latex.length latex)
  , vector := dedupKeepFirst (scanAux tryVecMatch latex.length latex) }

/-! ## colorize_equation (main.py 311-354)

The color scheme is a mapping from single characters (the UI keys such as
x, y, β, ε) to color strings; the code looks it up at the first character
of each stored variable name. -/

def lookupColor (scheme : List (Char × Str)) (c : Char) : Option Str :=
  match scheme with
  | [] => none
  | (k, v) :: rest => if k == c then some v else lookupColor rest c

/-- Generic left-to-right single-pass rewriter modelling one re.sub call:
at each position of the original string the matcher receives the previous
original character (for lookbehinds) and the remaining original string; on
a match it yields the matched text, its replacement and the remainder of
the original string, and scanning continues there.  The fuel is the input
length, sufficient because every matcher consumes at least one character. -/
def rw1 (m : Option Char → Str → Option (Str × Str × Str)) :
    Nat → Option Char → Str → Str
  | 0, _, s => s
  | fuel + 1, prev, s =>
    match s with
    | [] => []
    | c :: rest =>
      match m prev s with
      | some (t, r, a) =>
        r ++ rw1 m fuel (match t.getLast? with | some x => some x | none => prev) a
      | none => c :: rw1 m fuel (some c) rest

def applySub (m : Option Char → Str → Option (Str × Str × Str)) (s : Str) : Str :=
  rw1 m s.length none s

/-- The replacement text used by the bare, subscript and greek branches:
a color directive wrapping the matched group. -/
def colorWrap (col v : Str) : Str :=
  chars ("\\color\x7b") ++ col ++ chars ("\x7d\x7b") ++ v ++ chars ("\x7d")

/-- Negative lookahead of the bare-symbol replacement pattern in
colorize_equation: next character must not be a word character or a brace
(note: unlike the recognizer pattern this class also holds the closing
brace). -/
def okAheadColor : Option Char → Bool
  | none => true
  | some c => !(isWordChar c || c == '\x7b' || c == '\x7d')

/-- Matcher of the bare-symbol substitution of colorize_equation
(main.py 348-352). -/
def singleMatcher (v col : Str) (prev : Option Char) (s : Str) :
    Option (Str × Str × Str) :=
  if !v.isEmpty && v.isPrefixOf s && okBehind prev
      && okAheadColor (s.drop v.length).head? then
    some (v, colorWrap col v, s.drop v.length)
  else none

/-- Split at the first underscore, dropping it, as var.split takes the
base symbol and the subscript text (which keeps its braces). -/
def splitUnderscore : Str → Option (Str × Str)
  | [] => none
  | c :: rest =>
    if c == '_' then some ([], rest)
    else
      match splitUnderscore rest with
      | some (b, t) => some (c :: b, t)
      | none => none

def subscriptRepl (col base subTxt : Str) : Str :=
  chars ("\\color\x7b") ++ col ++ chars ("\x7d\x7b") ++ base ++ chars ("\x7d_") ++ subTxt

/-- Matcher of the subscript substitution of colorize_equation
(main.py 342-346).  The code interpolates the subscript text into a
regular expression; this embedding matches it literally, which coincides
with Python exactly when the subscript text holds no regex metacharacters
(braced alphabetic subscripts such as the ones in the theorems below; a
braced all-digit subscript would instead be read by Python as a repetition
count, as noted where relevant). -/
def subscriptMatcher (base subTxt col : Str) (_ : Option Char) (s : Str) :
    Option (Str × Str × Str) :=
  if (base ++ '_' :: subTxt).isPrefixOf s then
    some (base ++ '_' :: subTxt, subscriptRepl col base subTxt,
          s.drop (base ++ '_' :: subTxt).length)
  else none

/-- The replacement of the vector substitution: always a boldsymbol
command, whatever wrapping command was matched. -/
def vectorRepl (col v : Str) : Str :=
  chars ("\\boldsymbol\x7b\\color\x7b") ++ col ++ chars ("\x7d\x7b") ++ v ++ chars ("\x7d\x7d")

def vecLit (cmd v : Str) : Str := '\\' :: (cmd ++ '\x7b' :: (v ++ ['\x7d']))

def tryLit (lit repl : Str) (s : Str) : Option (Str × Str × Str) :=
  if lit.isPrefixOf s then some (lit, repl, s.drop lit.length) else none

/-- Matcher of the vector substitution of colorize_equation
(main.py 335-339): any of the three wrapping commands applied to the
stored content is rewritten to a boldsymbol command holding the colored
content. -/
def vectorMatcher (v col : Str) (_ : Option Char) (s : Str) :
    Option (Str × Str × Str) :=
  match tryLit (vecLit (chars ("boldsymbol")) v) (vectorRepl col v) s with
  | some r => some r
  | none =>
    match tryLit (vecLit (chars ("mathbf")) v) (vectorRepl col v) s with
    | some r => some r
    | none => tryLit (vecLit (chars ("vec")) v) (vectorRepl col v) s

/-- Word-boundary test between the previous and next character, used when
a stored greek name beginning with a backslash-b escape is compiled as a
regex (the escape is read as a word boundary, not as a literal). -/
def isBoundary (prev next : Option Char) : Bool :=
  (match prev with | none => false | some c => isWordChar c)
    != (match next with | none => false | some c => isWordChar c)

/-- Python escape characters recognized inside a compiled pattern. -/
def escChar : Char → Option Char
  | 'a' => some '\x07'
  | 'f' => some '\x0c'
  | 'n' => some '\n'
  | 'r' => some '\r'
  | 't' => some '\t'
  | 'v' => some '\x0b'
  | _ => none

/-- Matcher of the greek substitution of colorize_equation
(main.py 329-333).  The stored greek name keeps its backslash, so when the
code interpolates it into a pattern, the backslash and the first letter
are read as a regex escape: backslash-b becomes a word boundary and the
other recognized escapes become control characters, so the pattern can
never match the literal command text.  (For an unrecognized escape Python
would raise re.error; this branch is unreachable in the program because
the guard requires the backslash itself to be a scheme key, and all
theorems below keep schemes without a backslash key.) -/
def greekMatcher (v col : Str) (prev : Option Char) (s : Str) :
    Option (Str × Str × Str) :=
  match v with
  | '\\' :: 'b' :: litRest =>
    if !litRest.isEmpty && isBoundary prev s.head? && litRest.isPrefixOf s
        && !(match (s.drop litRest.length).head? with
             | some c => c.isAlpha
             | none => false) then
      some (litRest, colorWrap col litRest, s.drop litRest.length)
    else none
  | '\\' :: x :: litRest =>
    match escChar x with
    | some e =>
      let lit := e :: litRest
      if lit.isPrefixOf s
          && !(match (s.drop lit.length).head? with
               | some c => c.isAlpha
               | none => false) then
        some (lit, colorWrap col lit, s.drop lit.length)
      else none
    | none => none
  | _ => none

inductive Role
  | single
  | subscript
  | greek
  | vector
deriving DecidableEq

/-- One iteration of the inner loop of colorize_equation: look up the
first character of the variable name in the color scheme; without an
entry the string is returned untouched, otherwise the substitution of the
role is applied.  (An empty variable name would raise an IndexError in
Python; the recognizer never produces one.) -/
def applyVar (role : Role) (scheme : List (Char × Str)) (s : Str) (v : Str) : Str :=
  match v with
  | [] => s
  | c :: _ =>
    match lookupColor scheme c with
    | none => s
    | some col =>
      match role with
      | .greek => applySub (greekMatcher v col) s
      | .vector => applySub (vectorMatcher v col) s
      | .subscript =>
        match splitUnderscore v with
        | some (base, subTxt) => applySub (subscriptMatcher base subTxt col) s
        | none => s
      | .single => applySub (singleMatcher v col) s

/-- Stable insertion of a string into a list sorted by descending length,
modelling the stable descending sort of the variable names. -/
def insertLenDesc (x : Str) : List Str → List Str
  | [] => [x]
  | y :: ys => if y.length ≤ x.length then x :: y :: ys else y :: insertLenDesc x ys

def sortLenDesc : List Str → List Str
  | [] => []
  | x :: xs => insertLenDesc x (sortLenDesc xs)

/-- The loop body of colorize_equation for one role: sort the variable
names by descending length and apply each substitution in turn. -/
def applyRole (role : Role) (scheme : List (Char × Str)) (vs : List Str) (s : Str) : Str :=
  (sortLenDesc vs).foldl (applyVar role scheme) s

/-- Substring containment, as the Python in-operator on strings. -/
def containsStr (p : Str) : Str → Bool
  | [] => p.isPrefixOf []
  | s@(_ :: rest) => p.isPrefixOf s || containsStr p rest

/-- The two display-environment markers tested by colorize_equation. -/
def envMarkers : List Str := [chars ("\\begin\x7balign"), chars ("\\begin\x7bequation")]

def hasEnvB (s : Str) : Bool := envMarkers.any (fun p => containsStr p s)

def wrapAlign (s : Str) : Str :=
  chars ("\\begin\x7balign*\x7d\n") ++ s ++ chars ("\n\\end\x7balign*\x7d")

/-- The variable-substitution phase of colorize_equation: the four roles
are processed in the dictionary insertion order of identify_variables,
namely single, subscript, greek, vector. -/
def applyAllRoles (vars : Variables) (scheme : List (Char × Str)) (s : Str) : Str :=
  applyRole .vector scheme vars.vector
    (applyRole .greek scheme vars.greek
      (applyRole .subscript scheme vars.subscript
        (applyRole .single scheme vars.single s)))

/-- colorize_equation (main.py 311-354): wrap in a display environment
when none is present, then run the substitutions of the four roles. -/
def colorize_equation (latex : Str) (vars : Variables) (scheme : List (Char × Str)) : Str :=
  applyAllRoles vars scheme (if hasEnvB latex then latex else wrapAlign latex)

/-! ## LatexParser._clean_latex (main.py 56-79)

Each of the normalization passes is one re.sub call; they are applied in
the order of the code and followed by a strip. -/

def spaceRun : Str → Str × Str
  | [] => ([], [])
  | c :: rest =>
    if isPySpace c then
      let (run, r) := spaceRun rest
      (c :: run, r)
    else ([], c :: rest)

def digitRun : Str → Str × Str
  | [] => ([], [])
  | c :: rest =>
    if c.isDigit then
      let (run, r) := digitRun rest
      (c :: run, r)
    else ([], c :: rest)

/-- Pass 1: remove a displaystyle command and any following whitespace. -/
def displayMatcher (_ : Option Char) (s : Str) : Option (Str × Str × Str) :=
  let lit := chars ("\\displaystyle")
  if lit.isPrefixOf s then
    let (run, rest) := spaceRun (s.drop lit.length)
    some (lit ++ run, [], rest)
  else none

/-- Passes 2 and 3: rewrite a wrapping command with optional spacing and a
non-empty braced content to a boldsymbol command. -/
def wrapCmdMatcher (cmdLit : Str) (_ : Option Char) (s : Str) : Option (Str × Str × Str) :=
  if cmdLit.isPrefixOf s then
    let (run, rest) := spaceRun (s.drop cmdLit.length)
    match rest with
    | '\x7b' :: inner =>
      match splitAtBrace inner with
      | some (content, after) =>
        if content.isEmpty then none
        else
          some (cmdLit ++ run ++ '\x7b' :: (content ++ ['\x7d']),
                chars ("\\boldsymbol\x7b") ++ content ++ ['\x7d'], after)
      | none => none
    | _ => none
  else none

/-- Passes 4 and 5: remove spacing between a left or right command and its
delimiter. -/
def delimMatcher (cmdLit : Str) (delims : List Char) (_ : Option Char) (s : Str) :
    Option (Str × Str × Str) :=
  if cmdLit.isPrefixOf s then
    let (run, rest) := spaceRun (s.drop cmdLit.length)
    match rest with
    | d :: after =>
      if d ∈ delims then some (cmdLit ++ run ++ [d], cmdLit ++ [d], after)
      else none
    | [] => none
  else none

/-- Passes 6 and 7: brace a digit run following a subscript or superscript
marker, dropping spacing between them. -/
def scriptMatcher (mark : Char) (_ : Option Char) (s : Str) : Option (Str × Str × Str) :=
  match s with
  | c :: rest =>
    if c == mark then
      let (ws, rest') := spaceRun rest
      let (ds, after) := digitRun rest'
      if ds.isEmpty then none
      else some (c :: (ws ++ ds), c :: '\x7b' :: (ds ++ ['\x7d']), after)
    else none
  | [] => none

/-- Pass 8: normalize the spacing around a binary operator to one space on
each side. -/
def opMatcher (_ : Option Char) (s : Str) : Option (Str × Str × Str) :=
  let (ws1, rest) := spaceRun s
  match rest with
  | c :: rest' =>
    if c == '=' || c == '+' || c == '-' || c == '*' || c == '/' then
      let (ws2, after) := spaceRun rest'
      some (ws1 ++ c :: ws2, ' ' :: c :: [' '], after)
    else none
  | [] => none

/-- Pass 9: collapse a whitespace run to a single space. -/
def wsMatcher (_ : Option Char) (s : Str) : Option (Str × Str × Str) :=
  let (ws, rest) := spaceRun s
  if ws.isEmpty then none else some (ws, [' '], rest)

/-- Python str.strip of leading and trailing whitespace. -/
def stripStr (s : Str) : Str :=
  ((s.dropWhile (fun c => isPySpace c)).reverse.dropWhile (fun c => isPySpace c)).reverse

/-- LatexParser._clean_latex (main.py 56-79): the nine substitution passes
in source order, then the strip. -/
def clean_latex (latex : Str) : Str :=
  let p1 := applySub displayMatcher latex
  let p2 := applySub (wrapCmdMatcher (chars ("\\mathbf"))) p1
  let p3 := applySub (wrapCmdMatcher (chars ("\\vec"))) p2
  let p4 := applySub (delimMatcher (chars ("\\left")) ['\x7b', '[', '(', '|']) p3
  let p5 := applySub (delimMatcher (chars ("\\right")) ['\x7d', ')', ']', '|']) p4
  let p6 := applySub (scriptMatcher '_') p5
  let p7 := applySub (scriptMatcher '^') p6
  let p8 := applySub opMatcher p7
  let p9 := applySub wsMatcher p8
  stripStr p9

/-! ## LatexParser._is_meaningful_equation (main.py 81-85)

The filter tests the patterns of self.variable_patterns from the
constructor (main.py 15-20); the bare-symbol and greek patterns there
differ from the recognizer's (no opening-brace exclusion in the bare
lookahead, and no excluded command names for greek). -/

/-- Python str.isdigit on ASCII input: non-empty and all digits. -/
def isdigitStr (s : Str) : Bool := !s.isEmpty && s.all (fun c => c.isDigit)

/-- Lookahead of the constructor's bare-symbol pattern: next character
must not be a word character. -/
def okAhead0 : Option Char → Bool
  | none => true
  | some c => !isWordChar c

/-- Does the constructor's bare-symbol pattern match anywhere? -/
def hasSingle0Aux : Option Char → Str → Bool
  | _, [] => false
  | prev, c :: rest =>
    (c.isAlpha && okBehind prev && okAhead0 rest.head?)
      || hasSingle0Aux (some c) rest

def hasSingle0 (s : Str) : Bool := hasSingle0Aux none s

/-- Does a position-based matcher succeed at some position? -/
def existsPos (tm : Str → Option (Str × Nat)) : Str → Bool
  | [] => (tm []).isSome
  | s@(_ :: rest) => (tm s).isSome || existsPos tm rest

/-- The constructor's greek pattern: a backslash, a non-empty letter run,
and a word boundary after the run, so the character after the run must
not be a word character. -/
def tryGreek0 : Str → Option (Str × Nat)
  | '\\' :: rest =>
    let (run, after) := alphaRun rest
    if run.isEmpty then none
    else
      match after.head? with
      | some c => if isWordChar c then none else some ('\\' :: run, run.length + 1)
      | none => some ('\\' :: run, run.length + 1)
  | _ => none

/-- The constructor's vector pattern: a mathbf command wrapping exactly
one letter. -/
def tryVec0 : Str → Option (Str × Nat)
  | '\\' :: 'm' :: 'a' :: 't' :: 'h' :: 'b' :: 'f' :: '\x7b' :: c :: '\x7d' :: _ =>
    if c.isAlpha then some ([c], 10) else none
  | _ => none

/-- LatexParser._is_meaningful_equation (main.py 81-85). -/
def is_meaningful (latex : Str) : Bool :=
  decide (5 < latex.length) && !isdigitStr latex
    && (hasSingle0 latex || existsPos trySubMatch latex
        || existsPos tryGreek0 latex || existsPos tryVec0 latex)

/-! ## LatexParser.extract_equations (main.py 32-54)

The HTML parsing is an external collaborator; the parsed document is
modelled as the list of located math elements, each carrying its optional
source annotation string and its surrounding context text. -/

structure MathElem where
  annot : Option Str
  context : Str
deriving Repr, DecidableEq

/-- LatexParser.extract_equations (main.py 32-54): for each math element
holding a non-empty annotation, clean it and keep it with its context if
it passes the filter.  The code appends every qualifying pair. -/
def extract_equations (elems : List MathElem) : List (Str × Str) :=
  elems.filterMap fun m =>
    match m.annot with
    | none => none
    | some a =>
      if a.isEmpty then none
      else
        let l := clean_latex a
        if is_meaningful l then some (l, m.context) else none

/-- Modelled from the spec, for comparison with the code's filter: the
spelling test the specification claims for condition (c), over the
tracked symbols x and y (case-insensitive latin letters) and the Greek
commands of the coefficient and error symbols (exact). -/
def spec_containsTrackedSpelling (s : Str) : Bool :=
  s.any (fun c => c == 'x' || c == 'X' || c == 'y' || c == 'Y')
    || containsStr (chars ("\\beta")) s
    || containsStr (chars ("\\varepsilon")) s

/-! ## WikipediaLatexHandler (src/wikipedia_handler.py)

The handler state holds the two attribute dictionaries; dictionaries are
modelled as association lists with first-match lookup and
update-in-place-or-append insertion, matching insertion-ordered Python
dictionaries. -/

def lookupAssoc {α : Type} : List (Str × α) → Str → Option α
  | [], _ => none
  | (k, v) :: rest, p => if k = p then some v else lookupAssoc rest p

def insertAssoc {α : Type} : List (Str × α) → Str → α → List (Str × α)
  | [], p, x => [(p, x)]
  | (k, v) :: rest, p, x =>
    if k = p then (k, x) :: rest else (k, v) :: insertAssoc rest p x

structure Handler where
  equation_map : List (Str × Str)
  style_map : List (Str × (Str × Str))
deriving Repr, DecidableEq

def natDigits (n : Nat) : Str := Nat.toDigits 10 n

def placeholderFor (idx : Nat) : Str := chars ("LATEX_EQUATION_") ++ natDigits idx

/-- WikipediaLatexHandler.extract_and_map_equations (wikipedia_handler.py
12-34), on the abstract document: every math element is enumerated (the
index advances even for skipped elements); an element with a non-empty
annotation registers its stripped source under the indexed placeholder
and appends it to the returned list.  The soup rewriting is presentation
plumbing with no effect on the handler state. -/
def extract_and_map_aux : Nat → List (Option Str) → Handler → List Str → Handler × List Str
  | _, [], h, acc => (h, acc)
  | idx, e :: es, h, acc =>
    match e with
    | some a =>
      if a.isEmpty then extract_and_map_aux (idx + 1) es h acc
      else
        let l := stripStr a
        extract_and_map_aux (idx + 1) es
          { h with equation_map := insertAssoc h.equation_map (placeholderFor idx) l }
          (acc ++ [l])
    | none => extract_and_map_aux (idx + 1) es h acc

def extract_and_map_equations (h : Handler) (elems : List (Option Str)) :
    Handler × List Str :=
  extract_and_map_aux 0 elems h []

/-- WikipediaLatexHandler.update_equation_style (wikipedia_handler.py
36-44). -/
def update_equation_style (h : Handler) (p color : Str) : Bool × Handler :=
  match lookupAssoc h.equation_map p with
  | some eqSrc => (true, { h with style_map := insertAssoc h.style_map p (color, eqSrc) })
  | none => (false, h)

/-- WikipediaLatexHandler.get_styled_equation (wikipedia_handler.py
46-51). -/
def get_styled_equation (h : Handler) (p : Str) : Str :=
  match lookupAssoc h.style_map p with
  | some (c, e) => chars ("\\color\x7b") ++ c ++ chars ("\x7d\x7b") ++ e ++ chars ("\x7d")
  | none => (lookupAssoc h.equation_map p).getD []

/-- Handler states reachable through the class interface: a fresh handler
followed by any sequence of extraction and style-update calls. -/
inductive Reachable : Handler → Prop
  | init : Reachable ⟨[], []⟩
  | extractStep (h : Handler) (elems : List (Option Str)) :
      Reachable h → Reachable (extract_and_map_equations h elems).1
  | updateStep (h : Handler) (p c : Str) :
      Reachable h → Reachable (update_equation_style h p c).2

/-! ## General lemmas about the rewriting machinery -/

theorem isPrefixOf_eq_append {v s : Str} (h : v.isPrefixOf s = true) :
    s = v ++ s.drop v.length := by
  obtain ⟨t, ht⟩ := List.isPrefixOf_iff_prefix.mp h
  rw [← ht, List.drop_left]

theorem sublist_middle (a t b : Str) : List.Sublist t (a ++ (t ++ b)) :=
  (List.sublist_append_left t b).trans (List.sublist_append_right a (t ++ b))

/-- Every match of the bare-symbol substitution consumes the non-empty
variable name, and its replacement holds the matched text. -/
theorem singleMatcher_contract (v col : Str) :
    ∀ prev s t r a, singleMatcher v col prev s = some (t, r, a) →
      s = t ++ a ∧ t ≠ [] ∧ List.Sublist t r := by
  intro prev s t r a h
  unfold singleMatcher at h
  split_ifs at h with hc
  · simp only [Option.some.injEq, Prod.mk.injEq] at h
    obtain ⟨rfl, rfl, rfl⟩ := h
    simp only [Bool.and_eq_true] at hc
    refine ⟨isPrefixOf_eq_append hc.1.1.2, ?_, ?_⟩
    · intro hnil
      rw [hnil] at hc
      simp at hc
    · have h1 : List.Sublist v (chars ("\\color\x7b") ++ ((col ++ chars ("\x7d\x7b"))
          ++ (v ++ chars ("\x7d")))) :=
        (sublist_middle _ _ _).trans (List.sublist_append_right _ _)
      unfold colorWrap
      simpa [List.append_assoc] using h1

/-- Every match of the subscript substitution consumes the literal
variable text, and its replacement holds the matched characters in
order. -/
theorem subscriptMatcher_contract (base subTxt col : Str) :
    ∀ prev s t r a, subscriptMatcher base subTxt col prev s = some (t, r, a) →
      s = t ++ a ∧ t ≠ [] ∧ List.Sublist t r := by
  intro prev s t r a h
  unfold subscriptMatcher at h
  split_ifs at h with hc
  · simp only [Option.some.injEq, Prod.mk.injEq] at h
    obtain ⟨rfl, rfl, rfl⟩ := h
    refine ⟨isPrefixOf_eq_append hc, by simp, ?_⟩
    have hinner : List.Sublist ('_' :: subTxt) (chars ("\x7d_") ++ subTxt) :=
      (List.Sublist.refl ('_' :: subTxt)).cons '\x7d'
    have hmid : List.Sublist (base ++ '_' :: subTxt)
        (base ++ (chars ("\x7d_") ++ subTxt)) :=
      (List.Sublist.refl base).append hinner
    have h1 : List.Sublist (base ++ '_' :: subTxt)
        ((chars ("\\color\x7b") ++ (col ++ chars ("\x7d\x7b")))
          ++ (base ++ (chars ("\x7d_") ++ subTxt))) :=
      hmid.trans (List.sublist_append_right _ _)
    unfold subscriptRepl
    simpa [List.append_assoc] using h1

/-- A rewriting pass whose matcher always consumes a non-empty piece of
the original string and reproduces it inside the replacement leaves the
input as a subsequence of the output. -/
theorem rw1_sublist (m : Option Char → Str → Option (Str × Str × Str))
    (hm : ∀ prev s t r a, m prev s = some (t, r, a) →
      s = t ++ a ∧ t ≠ [] ∧ List.Sublist t r) :
    ∀ fuel (prev : Option Char) (s : Str), s.length ≤ fuel →
      List.Sublist s (rw1 m fuel prev s) := by
  intro fuel
  induction fuel with
  | zero =>
    intro prev s h
    exact List.Sublist.refl s
  | succ n ih =>
    intro prev s hlen
    match s with
    | [] => simp [rw1]
    | c :: rest =>
      rw [rw1]
      cases hms : m prev (c :: rest) with
      | none =>
        exact (ih (some c) rest (by simpa using Nat.le_of_succ_le_succ hlen)).cons₂ c
      | some tra =>
        obtain ⟨t, r, a⟩ := tra
        obtain ⟨hsplit, hne, htr⟩ := hm _ _ _ _ _ hms
        have hlt : a.length ≤ n := by
          have h1 : (c :: rest).length = t.length + a.length := by
            rw [hsplit, List.length_append]
          have h2 : 1 ≤ t.length := by
            cases t with
            | nil => exact absurd rfl hne
            | cons _ _ => simp
          simp only [List.length_cons] at hlen h1
          omega
        have h3 := htr.append
          (ih (match t.getLast? with | some x => some x | none => prev) a hlt)
        rw [hsplit]
        exact h3

theorem applySub_sublist (m : Option Char → Str → Option (Str × Str × Str))
    (hm : ∀ prev s t r a, m prev s = some (t, r, a) →
      s = t ++ a ∧ t ≠ [] ∧ List.Sublist t r)
    (s : Str) : List.Sublist s (applySub m s) :=
  rw1_sublist m hm s.length none s (Nat.le_refl _)

/-- The color looked up for a stored variable name: the scheme entry at
its first character. -/
def headColor (scheme : List (Char × Str)) (v : Str) : Option Str :=
  match v with
  | [] => none
  | c :: _ => lookupColor scheme c

/-- A variable name whose first character has no scheme entry is skipped
by the substitution loop. -/
theorem applyVar_skip (role : Role) (scheme : List (Char × Str)) (s v : Str)
    (h : headColor scheme v = none) : applyVar role scheme s v = s := by
  cases v with
  | nil => rfl
  | cons c w =>
    simp only [headColor] at h
    simp only [applyVar, h]

theorem applyVar_single_sublist (scheme : List (Char × Str)) (s v : Str) :
    List.Sublist s (applyVar .single scheme s v) := by
  cases v with
  | nil => exact List.Sublist.refl s
  | cons c w =>
    simp only [applyVar]
    cases hcol : lookupColor scheme c with
    | none => exact List.Sublist.refl s
    | some col => exact applySub_sublist _ (singleMatcher_contract (c :: w) col) s

theorem applyVar_subscript_sublist (scheme : List (Char × Str)) (s v : Str) :
    List.Sublist s (applyVar .subscript scheme s v) := by
  cases v with
  | nil => exact List.Sublist.refl s
  | cons c w =>
    simp only [applyVar]
    cases hcol : lookupColor scheme c with
    | none => exact List.Sublist.refl s
    | some col =>
      cases hsp : splitUnderscore (c :: w) with
      | none => exact List.Sublist.refl s
      | some bt =>
        obtain ⟨base, subTxt⟩ := bt
        exact applySub_sublist _ (subscriptMatcher_contract base subTxt col) s

theorem foldl_sublist_preserve (f : Str → Str → Str) (vs : List Str)
    (hf : ∀ v ∈ vs, ∀ s, List.Sublist s (f s v)) :
    ∀ s, List.Sublist s (vs.foldl f s) := by
  induction vs with
  | nil => intro s; exact List.Sublist.refl s
  | cons v vs ih =>
    intro s
    exact (hf v (by simp) s).trans
      (ih (fun w hw s' => hf w (by simp [hw]) s') (f s v))

theorem mem_insertLenDesc (x v : Str) (l : List Str) :
    v ∈ insertLenDesc x l ↔ v = x ∨ v ∈ l := by
  induction l with
  | nil => simp [insertLenDesc]
  | cons y ys ih =>
    unfold insertLenDesc
    split_ifs with hle
    · simp
    · simp only [List.mem_cons, ih]
      tauto

theorem mem_sortLenDesc (v : Str) (l : List Str) :
    v ∈ sortLenDesc l ↔ v ∈ l := by
  induction l with
  | nil => simp [sortLenDesc]
  | cons x xs ih =>
    unfold sortLenDesc
    rw [mem_insertLenDesc]
    simp [ih]

theorem applyRole_single_sublist (scheme : List (Char × Str)) (vs : List Str) (s : Str) :
    List.Sublist s (applyRole .single scheme vs s) :=
  foldl_sublist_preserve _ _ (fun v _ s' => applyVar_single_sublist scheme s' v) s

theorem applyRole_subscript_sublist (scheme : List (Char × Str)) (vs : List Str) (s : Str) :
    List.Sublist s (applyRole .subscript scheme vs s) :=
  foldl_sublist_preserve _ _ (fun v _ s' => applyVar_subscript_sublist scheme s' v) s

theorem foldl_id_of_fix (f : Str → Str → Str) (vs : List Str)
    (hf : ∀ v ∈ vs, ∀ s, f s v = s) : ∀ s, vs.foldl f s = s := by
  induction vs with
  | nil => intro s; rfl
  | cons v vs ih =>
    intro s
    rw [List.foldl_cons, hf v (by simp) s]
    exact ih (fun w hw s' => hf w (by simp [hw]) s') s

/-- A whole role loop is the identity when none of its variable names has
a scheme entry. -/
theorem applyRole_skip (role : Role) (scheme : List (Char × Str)) (vs : List Str) (s : Str)
    (h : ∀ v ∈ vs, headColor scheme v = none) : applyRole role scheme vs s = s := by
  unfold applyRole
  exact foldl_id_of_fix _ _
    (fun v hv s' => applyVar_skip role scheme s' v (h v ((mem_sortLenDesc v vs).mp hv))) s

/-! ## Claims -/

/-- A subscripted variable name whose subscript text is a braced,
non-empty, purely alphabetic token.  On this class the code's
interpolated subscript pattern is a literal regular expression, so the
embedding of the subscript substitution is exact; a bare-digit subscript
is stored as a braced digit, which Python would instead read as a
repetition count. -/
def plainSubscriptVar (v : Str) : Bool :=
  match splitUnderscore v with
  | some (base, c0 :: rest) =>
    c0 == '\x7b' && !base.isEmpty && base.all (fun c => c.isAlpha) &&
      (match splitAtBrace rest with
       | some (inner, after) =>
         after.isEmpty && !inner.isEmpty && inner.all (fun c => c.isAlpha)
       | none => false)
  | _ => false

/-- C2 (counterexample): the equation string made of a mathbf wrap of the
tracked symbol x, under a mapping complete for its tracked symbols, is
not contained in the recolored output: the rewrite deletes the mathbf
command name, replacing it with boldsymbol. -/
theorem c2_counterexample :
    ¬ List.Sublist (chars ("\\mathbf\x7bx\x7d"))
      (colorize_equation (chars ("\\mathbf\x7bx\x7d"))
        (identify_variables (chars ("\\mathbf\x7bx\x7d")))
        [('x', chars ("#FF0000"))]) := by
  decide
/-- C1 (counterexample): the equation y = x with a mapping holding only
x does not fail and is not left unchanged: the output wraps the display
environment and colors x while leaving y bare, a partial mutation, and no
MissingColorMapping condition exists anywhere in the code. -/
theorem c1_counterexample :
    colorize_equation (chars ("y = x")) (identify_variables (chars ("y = x")))
        [('x', chars ("#FF0000"))]
      = chars ("\\begin\x7balign*\x7d\ny = \\color\x7b#FF0000\x7d\x7bx\x7d\n\\end\x7balign*\x7d")
    ∧ colorize_equation (chars ("y = x")) (identify_variables (chars ("y = x")))
        [('x', chars ("#FF0000"))] ≠ chars ("y = x")
    ∧ containsStr (chars ("\\color"))
        (colorize_equation (chars ("y = x")) (identify_variables (chars ("y = x")))
          [('x', chars ("#FF0000"))]) = true
    ∧ containsStr (chars ("\x7by\x7d"))
        (colorize_equation (chars ("y = x")) (identify_variables (chars ("y = x")))
          [('x', chars ("#FF0000"))]) = false := by
  refine ⟨by decide, by decide, by decide, by decide⟩

/-- C1 (amended): colorize_equation never fails on a missing mapping
entry: any variable name without a scheme entry is silently skipped, and
when no recognized variable has an entry the only change is the display
wrapping, so the caller always receives a rendered string rather than a
MissingColorMapping condition. -/
theorem c1_amended (E : Str) (vars : Variables) (scheme : List (Char × Str))
    (h : ∀ v ∈ vars.single ++ vars.subscript ++ vars.greek ++ vars.vector,
      headColor scheme v = none) :
    colorize_equation E vars scheme = if hasEnvB E then E else wrapAlign E := by
  unfold colorize_equation applyAllRoles
  rw [applyRole_skip .single scheme vars.single _ (fun v hv => h v (by simp [hv])),
      applyRole_skip .subscript scheme vars.subscript _ (fun v hv => h v (by simp [hv])),
      applyRole_skip .greek scheme vars.greek _ (fun v hv => h v (by simp [hv])),
      applyRole_skip .vector scheme vars.vector _ (fun v hv => h v (by simp [hv]))]

theorem c1_amended_witness :
    colorize_equation (chars ("y = x")) (identify_variables (chars ("y = x"))) []
      = wrapAlign (chars ("y = x")) := by
  have h := c1_amended (chars ("y = x")) (identify_variables (chars ("y = x"))) []
    (by decide)
  rw [h]
  decide
/-- C7 (code evaluation at the failing input): on the end-to-end example
equation with the complete four-symbol mapping, the output colors y and x
and wraps the display environment, but the Greek symbols are left
uncolored: the stored greek names begin with a backslash, the code looks
up that backslash in the scheme, finds nothing, and silently skips the
greek substitution, so the directives claimed for the coefficient and
error symbols never appear. -/
theorem c7_code_eval :
    colorize_equation (chars ("y = \\beta x + \\varepsilon"))
        (identify_variables (chars ("y = \\beta x + \\varepsilon")))
        [('x', chars ("#FF0000")), ('y', chars ("#00FF00")),
         ('β', chars ("#0000FF")), ('ε', chars ("#800080"))]
      = chars ("\\begin\x7balign*\x7d\n\\color\x7b#00FF00\x7d\x7by\x7d = \\beta \\color\x7b#FF0000\x7d\x7bx\x7d + \\varepsilon\n\\end\x7balign*\x7d")
    ∧ containsStr (chars ("\\color\x7b#0000FF\x7d"))
        (colorize_equation (chars ("y = \\beta x + \\varepsilon"))
          (identify_variables (chars ("y = \\beta x + \\varepsilon")))
          [('x', chars ("#FF0000")), ('y', chars ("#00FF00")),
           ('β', chars ("#0000FF")), ('ε', chars ("#800080"))]) = false
    ∧ containsStr (chars ("\\color\x7b#800080\x7d"))
        (colorize_equation (chars ("y = \\beta x + \\varepsilon"))
          (identify_variables (chars ("y = \\beta x + \\varepsilon")))
          [('x', chars ("#FF0000")), ('y', chars ("#00FF00")),
           ('β', chars ("#0000FF")), ('ε', chars ("#800080"))]) = false := by
  refine ⟨by decide, by decide, by decide⟩

/-- C8 (confirmed): on the equation with a braced subscript and only x
tracked, the recognizer stores exactly the subscripted occurrence of x
with subscript text i (and no bare occurrence of x), and the recolored
output wraps only the base symbol in a color directive, re-emitting the
subscript and the rest of the equation unchanged immediately after. -/
theorem c8_subscript_example :
    (identify_variables (chars ("x_\x7bi\x7d = 5"))).subscript = [chars ("x_\x7bi\x7d")]
    ∧ chars ("x") ∉ (identify_variables (chars ("x_\x7bi\x7d = 5"))).single
    ∧ colorize_equation (chars ("x_\x7bi\x7d = 5"))
        (identify_variables (chars ("x_\x7bi\x7d = 5")))
        [('x', chars ("#FF0000"))]
      = chars ("\\begin\x7balign*\x7d\n\\color\x7b#FF0000\x7d\x7bx\x7d_\x7bi\x7d = 5\n\\end\x7balign*\x7d") := by
  refine ⟨by decide, by decide, by decide⟩
/-- The substring test agrees with the infix relation. -/
theorem containsStr_iff (p : Str) : ∀ s : Str, containsStr p s = true ↔ p <:+: s := by
  intro s
  induction s with
  | nil =>
    simp [containsStr, List.isPrefixOf_iff_prefix, List.prefix_nil, List.infix_nil]
  | cons c rest ih =>
    simp only [containsStr, Bool.or_eq_true, List.isPrefixOf_iff_prefix, ih]
    exact (List.infix_cons_iff).symm

/-- The display-environment test of colorize_equation holds exactly when
one of the two markers occurs in the string. -/
theorem hasEnvB_iff (s : Str) :
    hasEnvB s = true ↔
      (chars ("\\begin\x7balign") <:+: s ∨ chars ("\\begin\x7bequation") <:+: s) := by
  simp [hasEnvB, envMarkers, containsStr_iff]

/-- C9 (confirmed): colorize_equation wraps the whole string in an align*
display environment exactly when the input contains neither display
marker; an input already holding one is passed to the substitution phase
unwrapped, so no nested environment is introduced. -/
theorem c9_env_wrap (E : Str) (vars : Variables) (scheme : List (Char × Str)) :
    (¬ (chars ("\\begin\x7balign") <:+: E ∨ chars ("\\begin\x7bequation") <:+: E) →
      colorize_equation E vars scheme = applyAllRoles vars scheme (wrapAlign E))
    ∧ ((chars ("\\begin\x7balign") <:+: E ∨ chars ("\\begin\x7bequation") <:+: E) →
      colorize_equation E vars scheme = applyAllRoles vars scheme E) := by
  constructor
  · intro h
    have hb : hasEnvB E = false := by
      rw [← Bool.not_eq_true, hasEnvB_iff]
      exact h
    unfold colorize_equation
    rw [hb]
    simp
  · intro h
    have hb : hasEnvB E = true := (hasEnvB_iff E).mpr h
    unfold colorize_equation
    rw [hb]
    simp

theorem c9_env_wrap_witness :
    colorize_equation (chars ("\\begin\x7balign*\x7d x \\end\x7balign*\x7d"))
        ⟨[], [], [], []⟩ []
      = applyAllRoles ⟨[], [], [], []⟩ []
          (chars ("\\begin\x7balign*\x7d x \\end\x7balign*\x7d"))
    ∧ colorize_equation (chars ("y = x")) ⟨[], [], [], []⟩ []
      = applyAllRoles ⟨[], [], [], []⟩ [] (wrapAlign (chars ("y = x"))) :=
  ⟨(c9_env_wrap (chars ("\\begin\x7balign*\x7d x \\end\x7balign*\x7d")) ⟨[], [], [], []⟩ []).2
      (Or.inl (by decide)),
   (c9_env_wrap (chars ("y = x")) ⟨[], [], [], []⟩ []).1 (by decide)⟩
/-- Does one math element contribute exactly the pair (l, ctx) to the
extractor output? -/
def contributesPair (m : MathElem) (l ctx : Str) : Bool :=
  match m.annot with
  | none => false
  | some a =>
    !a.isEmpty && is_meaningful (clean_latex a)
      && decide (clean_latex a = l) && decide (m.context = ctx)

/-- C3 (counterexample): a document holding the same qualifying
annotation twice yields the same source string twice: the extractor does
not deduplicate. -/
theorem c3_counterexample :
    ¬ (List.map Prod.fst (extract_equations
        [⟨some (chars ("x + y = z")), chars ("ctx")⟩,
         ⟨some (chars ("x + y = z")), chars ("ctx")⟩])).Nodup := by
  decide

/-- C3 (amended): the extractor keeps every qualifying annotation node in
document order, duplicates included: each pair occurs in the output
exactly as many times as elements of the document contribute it, so equal
source strings are not merged. -/
theorem c3_amended (elems : List MathElem) (l ctx : Str) :
    (extract_equations elems).count (l, ctx)
      = elems.countP (fun m => contributesPair m l ctx) := by
  unfold extract_equations
  rw [List.count_filterMap]
  apply List.countP_congr
  intro m _
  cases hm : m.annot with
  | none => simp [contributesPair, hm]
  | some a =>
    by_cases he : a.isEmpty
    · simp [contributesPair, hm, he]
    · by_cases hme : is_meaningful (clean_latex a)
      · by_cases h1 : clean_latex a = l
        · by_cases h2 : m.context = ctx
          · simp [contributesPair, hm, he, hme, h1, h2]
          · simp [contributesPair, hm, he, hme, h1, h2]
        · simp [contributesPair, hm, he, hme, h1]
      · simp [contributesPair, hm, he, hme]
/-- C6 (counterexample): the equation source made of a left-right
delimiter pair around a digit is kept by the extractor (its cleaned form
is longer than five characters, is not all digits, and its left command
matches the generic greek pattern of the filter), yet it contains no
tracked-symbol spelling, refuting the claim that a kept equation must
contain one. -/
theorem c6_counterexample :
    extract_equations [⟨some (chars ("\\left( 1 \\right)")), []⟩]
      = [(chars ("\\left( 1 \\right)"), [])]
    ∧ spec_containsTrackedSpelling (chars ("\\left( 1 \\right)")) = false := by
  refine ⟨by decide, by decide⟩

/-- C6 (amended): a pair is produced by the extractor exactly when some
document element carries a non-empty annotation whose cleaned form is the
kept string with the element's context, the cleaned length exceeds five,
the string is not composed solely of digits, and one of the four generic
variable patterns of the constructor matches - any standalone latin
letter, any subscripted letter, any backslash command at a word boundary,
or any mathbf-wrapped letter - rather than specifically a tracked-symbol
spelling. -/
theorem c6_amended (elems : List MathElem) (l ctx : Str) :
    (l, ctx) ∈ extract_equations elems ↔
      ∃ m ∈ elems, ∃ a, m.annot = some a ∧ a ≠ [] ∧ clean_latex a = l
        ∧ m.context = ctx ∧ 5 < l.length ∧ isdigitStr l = false
        ∧ (hasSingle0 l = true ∨ existsPos trySubMatch l = true
           ∨ existsPos tryGreek0 l = true ∨ existsPos tryVec0 l = true) := by
  unfold extract_equations
  rw [List.mem_filterMap]
  constructor
  · rintro ⟨m, hm, hf⟩
    refine ⟨m, hm, ?_⟩
    cases ha : m.annot with
    | none => rw [ha] at hf; simp at hf
    | some a =>
      rw [ha] at hf
      simp only at hf
      split_ifs at hf with h1 h2
      simp only [Option.some.injEq, Prod.mk.injEq] at hf
      obtain ⟨hcl, hctx⟩ := hf
      refine ⟨a, rfl, by simpa using h1, hcl, hctx, ?_⟩
      rw [hcl] at h2
      simp only [is_meaningful, Bool.and_eq_true, Bool.or_eq_true,
        Bool.not_eq_true', decide_eq_true_iff] at h2
      obtain ⟨⟨hlen', hdig'⟩, hp⟩ := h2
      refine ⟨hlen', hdig', ?_⟩
      rcases hp with ((h | h) | h) | h
      · exact Or.inl h
      · exact Or.inr (Or.inl h)
      · exact Or.inr (Or.inr (Or.inl h))
      · exact Or.inr (Or.inr (Or.inr h))
  · rintro ⟨m, hm, a, ha, hne, hcl, hctx, hlen, hdig, hpat⟩
    refine ⟨m, hm, ?_⟩
    rw [ha]
    have h1 : a.isEmpty = false := by simpa using hne
    have hA : decide (5 < l.length) = true := decide_eq_true hlen
    have hB : (!isdigitStr l) = true := by rw [hdig]; rfl
    have hC : (hasSingle0 l || existsPos trySubMatch l
        || existsPos tryGreek0 l || existsPos tryVec0 l) = true := by
      rcases hpat with h | h | h | h <;> simp [h]
    have h2 : is_meaningful l = true := by
      unfold is_meaningful
      rw [hA, hB, hC]
      rfl
    simp [h1, hcl, h2, hctx]
theorem mem_foldl_addUniq (l : List Str) :
    ∀ (acc : List Str) (x : Str), x ∈ l.foldl addUniq acc ↔ x ∈ acc ∨ x ∈ l := by
  induction l with
  | nil => intro acc x; simp
  | cons y ys ih =>
    intro acc x
    rw [List.foldl_cons, ih]
    unfold addUniq
    split_ifs with hy
    · constructor
      · intro h
        rcases h with h | h
        · exact Or.inl h
        · exact Or.inr (by simp [h])
      · intro h
        rcases h with h | h
        · exact Or.inl h
        · rcases List.mem_cons.mp h with rfl | h
          · exact Or.inl hy
          · exact Or.inr h
    · simp only [List.mem_append, List.mem_singleton, List.mem_cons]
      tauto

theorem mem_dedupKeepFirst (l : List Str) (x : Str) :
    x ∈ dedupKeepFirst l ↔ x ∈ l := by
  unfold dedupKeepFirst
  rw [mem_foldl_addUniq]
  simp

theorem splitAtBrace_sound :
    ∀ (s content after : Str), splitAtBrace s = some (content, after) →
      s = content ++ '\x7d' :: after ∧ '\x7d' ∉ content := by
  intro s
  induction s with
  | nil => intro c a h; simp [splitAtBrace] at h
  | cons x rest ih =>
    intro content after h
    unfold splitAtBrace at h
    split_ifs at h with hx
    · simp only [Option.some.injEq, Prod.mk.injEq] at h
      obtain ⟨rfl, rfl⟩ := h
      have hx' : x = '\x7d' := by simpa using hx
      subst hx'
      simp
    · cases hs : splitAtBrace rest with
      | none => rw [hs] at h; simp at h
      | some pr =>
        obtain ⟨c2, a2⟩ := pr
        rw [hs] at h
        simp only [Option.some.injEq, Prod.mk.injEq] at h
        obtain ⟨rfl, rfl⟩ := h
        obtain ⟨h1, h2⟩ := ih c2 a2 hs
        constructor
        · rw [List.cons_append, ← h1]
        · intro hmem
          rcases List.mem_cons.mp hmem with rfl | hmem
          · simp at hx
          · exact h2 hmem

/-- The shape of every content stored by the vector pattern: non-empty,
beginning with a letter, holding no closing brace. -/
def vecContentOK (v : Str) : Prop :=
  (∃ c cs, v = c :: cs ∧ c.isAlpha = true) ∧ '\x7d' ∉ v

theorem tryVecAfterCmd_sound (s content : Str) (len : Nat)
    (h : tryVecAfterCmd s = some (content, len)) :
    vecContentOK content ∧ ∃ post, s = '\x7b' :: (content ++ '\x7d' :: post) := by
  rw [tryVecAfterCmd.eq_def] at h
  split at h
  case h_2 => simp at h
  case h_1 c rest =>
    split_ifs at h with hc
    · cases hs : splitAtBrace rest with
      | none => rw [hs] at h; simp at h
      | some pr =>
        obtain ⟨c2, a2⟩ := pr
        rw [hs] at h
        simp only [Option.some.injEq, Prod.mk.injEq] at h
        obtain ⟨rfl, rfl⟩ := h
        obtain ⟨h1, h2⟩ := splitAtBrace_sound rest c2 a2 hs
        refine ⟨⟨⟨c, c2, rfl, hc⟩, ?_⟩, a2, ?_⟩
        · intro hmem
          rcases List.mem_cons.mp hmem with rfl | hmem
          · simp at hc
          · exact h2 hmem
        · rw [h1]
          simp

theorem tryVecCmd_sound (cmd rest content : Str) (len : Nat)
    (h : tryVecCmd cmd rest = some (content, len)) :
    vecContentOK content ∧ ∃ post, rest = cmd ++ '\x7b' :: (content ++ '\x7d' :: post) := by
  unfold tryVecCmd at h
  split_ifs at h with hp
  · cases ha : tryVecAfterCmd (rest.drop cmd.length) with
    | none => rw [ha] at h; simp at h
    | some pr =>
      obtain ⟨c2, l2⟩ := pr
      rw [ha] at h
      simp only [Option.some.injEq, Prod.mk.injEq] at h
      obtain ⟨rfl, rfl⟩ := h
      obtain ⟨hok, post, hpost⟩ := tryVecAfterCmd_sound _ _ _ ha
      exact ⟨hok, post, by rw [isPrefixOf_eq_append hp, hpost]⟩

theorem tryVecMatch_sound (s v : Str) (len : Nat)
    (h : tryVecMatch s = some (v, len)) :
    vecContentOK v ∧ ∃ cmd post,
      (cmd = chars ("boldsymbol") ∨ cmd = chars ("mathbf") ∨ cmd = chars ("vec"))
      ∧ s = '\\' :: (cmd ++ '\x7b' :: (v ++ '\x7d' :: post)) := by
  rw [tryVecMatch.eq_def] at h
  split at h
  case h_2 => simp at h
  case h_1 rest =>
    cases h1 : tryVecCmd (chars ("boldsymbol")) rest with
    | some pr1 =>
      rw [h1] at h
      simp only [Option.some.injEq] at h
      obtain ⟨hok, post, hpost⟩ := tryVecCmd_sound _ _ _ _ (h ▸ h1)
      exact ⟨hok, chars ("boldsymbol"), post, Or.inl rfl, by rw [hpost]⟩
    | none =>
      rw [h1] at h
      cases h2 : tryVecCmd (chars ("mathbf")) rest with
      | some pr2 =>
        rw [h2] at h
        simp only [Option.some.injEq] at h
        obtain ⟨hok, post, hpost⟩ := tryVecCmd_sound _ _ _ _ (h ▸ h2)
        exact ⟨hok, chars ("mathbf"), post, Or.inr (Or.inl rfl), by rw [hpost]⟩
      | none =>
        rw [h2] at h
        obtain ⟨hok, post, hpost⟩ := tryVecCmd_sound _ _ _ _ h
        exact ⟨hok, chars ("vec"), post, Or.inr (Or.inr rfl), by rw [hpost]⟩

theorem scanVec_sound :
    ∀ (fuel : Nat) (s v : Str), v ∈ scanAux tryVecMatch fuel s →
      vecContentOK v ∧ ∃ pre cmd post,
        (cmd = chars ("boldsymbol") ∨ cmd = chars ("mathbf") ∨ cmd = chars ("vec"))
        ∧ s = pre ++ '\\' :: (cmd ++ '\x7b' :: (v ++ '\x7d' :: post)) := by
  intro fuel
  induction fuel with
  | zero => intro s v h; simp [scanAux] at h
  | succ n ih =>
    intro s v h
    match s with
    | [] => simp [scanAux] at h
    | c :: rest =>
      rw [scanAux] at h
      cases hm : tryVecMatch (c :: rest) with
      | some pr =>
        obtain ⟨v0, len⟩ := pr
        rw [hm] at h
        rcases List.mem_cons.mp h with rfl | h
        · obtain ⟨hok, cmd, post, hcmd, hshape⟩ := tryVecMatch_sound _ _ _ hm
          exact ⟨hok, [], cmd, post, hcmd, hshape⟩
        · obtain ⟨hok, pre, cmd, post, hcmd, hshape⟩ := ih _ v h
          refine ⟨hok, (c :: rest).take len ++ pre, cmd, post, hcmd, ?_⟩
          conv =>
            lhs
            rw [← List.take_append_drop len (c :: rest)]
          rw [hshape, List.append_assoc]
      | none =>
        rw [hm] at h
        obtain ⟨hok, pre, cmd, post, hcmd, hshape⟩ := ih rest v h
        exact ⟨hok, c :: pre, cmd, post, hcmd, by rw [List.cons_append, hshape]⟩

/-- C4 (counterexample): on the equation made of a mathbf wrap of the
two-letter content xy, the recognizer emits a vector occurrence whose
content is not a single symbol. -/
theorem c4_counterexample :
    chars ("xy") ∈ (identify_variables (chars ("\\mathbf\x7bxy\x7d"))).vector
    ∧ (chars ("xy")).length ≠ 1 := by
  refine ⟨by decide, by decide⟩

/-- C4 (amended): every vector occurrence emitted by the recognizer is a
latin letter followed by arbitrary further non-brace characters - not
necessarily a single tracked symbol - and comes from an occurrence of one
of the three wrapping commands applied to exactly that braced content. -/
theorem c4_amended (latex v : Str)
    (h : v ∈ (identify_variables latex).vector) :
    vecContentOK v ∧ ∃ pre cmd post,
      (cmd = chars ("boldsymbol") ∨ cmd = chars ("mathbf") ∨ cmd = chars ("vec"))
      ∧ latex = pre ++ '\\' :: (cmd ++ '\x7b' :: (v ++ '\x7d' :: post)) := by
  unfold identify_variables at h
  simp only at h
  rw [mem_dedupKeepFirst] at h
  exact scanVec_sound latex.length latex v h

theorem c4_amended_witness :
    chars ("xy") ∈ (identify_variables (chars ("\\mathbf\x7bxy\x7d"))).vector
    ∧ (vecContentOK (chars ("xy")) ∧ ∃ pre cmd post,
        (cmd = chars ("boldsymbol") ∨ cmd = chars ("mathbf") ∨ cmd = chars ("vec"))
        ∧ chars ("\\mathbf\x7bxy\x7d")
          = pre ++ '\\' :: (cmd ++ '\x7b' :: (chars ("xy") ++ '\x7d' :: post))) :=
  ⟨by decide, c4_amended _ _ (by decide)⟩
/-- The last character of prev followed by a string, threading the
lookbehind of a scan. -/
def lastOr (prev : Option Char) : Str → Option Char
  | [] => prev
  | c :: rest => lastOr (some c) rest

theorem lastOr_append (b : Str) :
    ∀ (a : Str) (prev : Option Char), lastOr prev (a ++ b) = lastOr (lastOr prev a) b := by
  intro a
  induction a with
  | nil => intro prev; rfl
  | cons x xs ih => intro prev; exact ih (some x)

/-- Completeness of the bare-symbol scan: a letter whose neighbours pass
the context tests is always collected, whatever surrounds it. -/
theorem scanSingle_complete (c : Char) (post : Str) :
    ∀ (pre : Str) (prev : Option Char),
      c.isAlpha = true → okBehind (lastOr prev pre) = true →
      okAheadId post.head? = true →
      [c] ∈ scanSingleAux prev (pre ++ c :: post) := by
  intro pre
  induction pre with
  | nil =>
    intro prev hc hb ha
    simp only [List.nil_append]
    rw [scanSingleAux]
    simp only [lastOr] at hb
    rw [hc, hb, ha]
    simp
  | cons p ps ih =>
    intro prev hc hb ha
    rw [List.cons_append, scanSingleAux]
    split_ifs with hcond
    · exact List.mem_cons_of_mem _ (ih (some p) hc hb ha)
    · exact ih (some p) hc hb ha

theorem tryVecMatch_ne (p : Char) (l : Str) (hp : p ≠ '\\') :
    tryVecMatch (p :: l) = none := by
  rw [tryVecMatch.eq_def]
  split
  case h_1 rest heq =>
    injection heq with h1 h2
    exact absurd h1 hp
  case h_2 => rfl

theorem tryVecMatch_mathbf (c : Char) (post : Str) (hc : c.isAlpha = true) :
    tryVecMatch ('\\' :: (chars ("mathbf") ++ '\x7b' :: c :: '\x7d' :: post))
      = some ([c], 10) := by
  simp [tryVecMatch, tryVecCmd, tryVecAfterCmd, splitAtBrace, chars, hc,
    List.isPrefixOf]

/-- Completeness of the vector scan: a vector-pattern match in a string
whose earlier part holds no backslash is always collected. -/
theorem scanVec_complete :
    ∀ (fuel : Nat) (pre rest v : Str) (len : Nat), '\\' ∉ pre →
      tryVecMatch rest = some (v, len) →
      (pre ++ rest).length ≤ fuel →
      v ∈ scanAux tryVecMatch fuel (pre ++ rest) := by
  intro fuel
  induction fuel with
  | zero =>
    intro pre rest v len hpre hm hlen
    obtain ⟨_, cmd, post, _, hshape⟩ := tryVecMatch_sound _ _ _ hm
    rw [hshape] at hlen
    simp at hlen
  | succ n ih =>
    intro pre rest v len hpre hm hlen
    cases pre with
    | nil =>
      simp only [List.nil_append] at hlen ⊢
      obtain ⟨_, cmd, post, _, hshape⟩ := tryVecMatch_sound _ _ _ hm
      rw [hshape]
      rw [scanAux]
      rw [hshape] at hm
      rw [hm]
      simp
    | cons p ps =>
      have hp : p ≠ '\\' := fun hpeq => hpre (hpeq ▸ List.mem_cons_self p ps)
      rw [List.cons_append, scanAux, tryVecMatch_ne p _ hp]
      exact ih ps rest v len (fun hmem => hpre (List.mem_cons_of_mem p hmem)) hm
        (by simpa using Nat.le_of_succ_le_succ hlen)

/-- C5 (counterexample): on the equation made of a mathbf wrap of the
single symbol x, the recognizer emits x both as a vector occurrence and
as a bare occurrence, although the string holds exactly one x, so both
occurrences cover the same text span. -/
theorem c5_counterexample :
    chars ("x") ∈ (identify_variables (chars ("\\mathbf\x7bx\x7d"))).vector
    ∧ chars ("x") ∈ (identify_variables (chars ("\\mathbf\x7bx\x7d"))).single
    ∧ (chars ("\\mathbf\x7bx\x7d")).count 'x' = 1 := by
  refine ⟨by decide, by decide, by decide⟩

/-- C5 (amended): a letter standing as the sole content of a mathbf wrap
is emitted under both the vector role and the bare role: the bare
pattern's context tests pass at the wrapped position, since the letter is
preceded by an opening brace and followed by a closing one, and the
recognizer does not remove the bare occurrence when a vector occurrence
covers the same span. -/
theorem c5_amended (pre post : Str) (c : Char)
    (hc : c.isAlpha = true) (hpre : '\\' ∉ pre) :
    [c] ∈ (identify_variables
      (pre ++ '\\' :: 'm' :: 'a' :: 't' :: 'h' :: 'b' :: 'f' :: '\x7b' :: c :: '\x7d' :: post)).single
    ∧ [c] ∈ (identify_variables
      (pre ++ '\\' :: 'm' :: 'a' :: 't' :: 'h' :: 'b' :: 'f' :: '\x7b' :: c :: '\x7d' :: post)).vector := by
  constructor
  · unfold identify_variables
    simp only
    rw [mem_dedupKeepFirst]
    have hL : pre ++ '\\' :: 'm' :: 'a' :: 't' :: 'h' :: 'b' :: 'f' :: '\x7b' :: c :: '\x7d' :: post
        = (pre ++ ['\\', 'm', 'a', 't', 'h', 'b', 'f', '\x7b']) ++ c :: '\x7d' :: post := by
      rw [List.append_assoc]
      rfl
    rw [hL]
    refine scanSingle_complete c ('\x7d' :: post)
      (pre ++ ['\\', 'm', 'a', 't', 'h', 'b', 'f', '\x7b']) none hc ?_ (by rfl)
    rw [lastOr_append]
    rfl
  · unfold identify_variables
    simp only
    rw [mem_dedupKeepFirst]
    exact scanVec_complete _ pre ('\\' :: (chars ("mathbf") ++ '\x7b' :: c :: '\x7d' :: post))
      [c] 10 hpre (tryVecMatch_mathbf c post hc) (Nat.le_refl _)

theorem c5_amended_witness :
    [('x' : Char)] ∈ (identify_variables
      (chars ("y = ") ++ '\\' :: 'm' :: 'a' :: 't' :: 'h' :: 'b' :: 'f' :: '\x7b' :: 'x' :: '\x7d' :: [])).single
    ∧ [('x' : Char)] ∈ (identify_variables
      (chars ("y = ") ++ '\\' :: 'm' :: 'a' :: 't' :: 'h' :: 'b' :: 'f' :: '\x7b' :: 'x' :: '\x7d' :: [])).vector :=
  c5_amended (chars ("y = ")) [] 'x' (by decide) (by decide)
theorem lookupAssoc_insertAssoc_self {α : Type} (l : List (Str × α)) (k : Str) (v : α) :
    lookupAssoc (insertAssoc l k v) k = some v := by
  induction l with
  | nil => simp [insertAssoc, lookupAssoc]
  | cons kv rest ih =>
    obtain ⟨k', v'⟩ := kv
    unfold insertAssoc
    split_ifs with hk
    · simp [lookupAssoc, hk]
    · simp [lookupAssoc, hk, ih]

theorem lookupAssoc_insertAssoc_isSome {α : Type} (l : List (Str × α)) (k p : Str) (v : α) :
    (lookupAssoc (insertAssoc l k v) p).isSome = true ↔
      p = k ∨ (lookupAssoc l p).isSome = true := by
  induction l with
  | nil =>
    simp only [insertAssoc, lookupAssoc]
    split_ifs with hk
    · subst hk
      simp
    · have hk' : ¬ p = k := fun h => hk h.symm
      simp [hk']
  | cons kv rest ih =>
    obtain ⟨k', v'⟩ := kv
    unfold insertAssoc
    split_ifs with hk
    · subst hk
      simp only [lookupAssoc]
      split_ifs with hp
      · have hp' : p = k' := hp.symm
        simp [hp']
      · have hp' : ¬ p = k' := fun h => hp h.symm
        simp [hp']
    · simp only [lookupAssoc]
      split_ifs with hp
      · simp
      · exact ih

theorem extract_aux_style (elems : List (Option Str)) :
    ∀ (idx : Nat) (h : Handler) (acc : List Str),
      (extract_and_map_aux idx elems h acc).1.style_map = h.style_map := by
  induction elems with
  | nil => intro idx h acc; rfl
  | cons e es ih =>
    intro idx h acc
    cases e with
    | none => exact ih (idx + 1) h acc
    | some a =>
      rw [extract_and_map_aux]
      by_cases he : a.isEmpty
      · simp only [he, if_true]
        exact ih (idx + 1) h acc
      · simp only [he, if_false]
        exact ih (idx + 1) _ _

theorem extract_aux_eq_mono (elems : List (Option Str)) :
    ∀ (idx : Nat) (h : Handler) (acc : List Str) (p : Str),
      (lookupAssoc h.equation_map p).isSome = true →
      (lookupAssoc (extract_and_map_aux idx elems h acc).1.equation_map p).isSome = true := by
  induction elems with
  | nil => intro idx h acc p hp; exact hp
  | cons e es ih =>
    intro idx h acc p hp
    cases e with
    | none => exact ih (idx + 1) h acc p hp
    | some a =>
      rw [extract_and_map_aux]
      by_cases he : a.isEmpty
      · simp only [he, if_true]
        exact ih (idx + 1) h acc p hp
      · simp only [he, if_false]
        refine ih (idx + 1) _ _ p ?_
        simp only
        rw [lookupAssoc_insertAssoc_isSome]
        exact Or.inr hp

/-- The style dictionary only ever holds placeholders registered in the
equation dictionary. -/
def styleWithinEq (h : Handler) : Prop :=
  ∀ p, (lookupAssoc h.style_map p).isSome = true →
    (lookupAssoc h.equation_map p).isSome = true

theorem reachable_styleWithinEq (h : Handler) (hr : Reachable h) : styleWithinEq h := by
  induction hr with
  | init => intro p hp; simp [lookupAssoc] at hp
  | extractStep h elems hr ih =>
    intro p hp
    unfold extract_and_map_equations at hp ⊢
    rw [extract_aux_style] at hp
    exact extract_aux_eq_mono elems 0 h [] p (ih p hp)
  | updateStep h p0 c hr ih =>
    intro p hp
    unfold update_equation_style at hp ⊢
    revert hp
    cases he : lookupAssoc h.equation_map p0 with
    | none =>
      intro hp
      simp only at hp ⊢
      exact ih p hp
    | some e =>
      intro hp
      simp only at hp ⊢
      rw [lookupAssoc_insertAssoc_isSome] at hp
      rcases hp with rfl | hp
      · simp [he]
      · exact ih p hp

/-- C10 (confirmed): on every handler state reachable through the class
interface, update_equation_style returns true exactly when the
placeholder was registered by extraction, in which case it records the
color with the registered source; for an unregistered placeholder it
returns false, leaves the state untouched, and get_styled_equation
returns the empty string for that placeholder. -/
theorem c10_update_contract (h : Handler) (hr : Reachable h) (p c : Str) :
    ((update_equation_style h p c).1 = true ↔
      (lookupAssoc h.equation_map p).isSome = true)
    ∧ (∀ e, lookupAssoc h.equation_map p = some e →
        update_equation_style h p c
          = (true, { h with style_map := insertAssoc h.style_map p (c, e) })
        ∧ lookupAssoc (update_equation_style h p c).2.style_map p = some (c, e))
    ∧ (lookupAssoc h.equation_map p = none →
        update_equation_style h p c = (false, h)
        ∧ get_styled_equation h p = []) := by
  refine ⟨?_, ?_, ?_⟩
  · unfold update_equation_style
    cases he : lookupAssoc h.equation_map p with
    | none => simp
    | some e => simp
  · intro e he
    unfold update_equation_style
    rw [he]
    constructor
    · rfl
    · exact lookupAssoc_insertAssoc_self h.style_map p (c, e)
  · intro he
    unfold update_equation_style
    rw [he]
    refine ⟨rfl, ?_⟩
    unfold get_styled_equation
    cases hs : lookupAssoc h.style_map p with
    | some st =>
      have := reachable_styleWithinEq h hr p (by rw [hs]; rfl)
      rw [he] at this
      simp at this
    | none =>
      rw [he]
      rfl

theorem c10_update_contract_witness :
    (update_equation_style (extract_and_map_equations ⟨[], []⟩
        [some (chars ("x = y"))]).1 (chars ("NOPE")) (chars ("#FF0000")))
      = (false, (extract_and_map_equations ⟨[], []⟩ [some (chars ("x = y"))]).1)
    ∧ get_styled_equation (extract_and_map_equations ⟨[], []⟩
        [some (chars ("x = y"))]).1 (chars ("NOPE")) = [] :=
  (c10_update_contract _ (Reachable.extractStep _ _ Reachable.init)
    (chars ("NOPE")) (chars ("#FF0000"))).2.2 (by decide)
theorem c6_amended_witness :
    (chars ("\\left( 1 \\right)"), ([] : Str)) ∈ extract_equations
      [⟨some (chars ("\\left( 1 \\right)")), []⟩] :=
  (c6_amended [⟨some (chars ("\\left( 1 \\right)")), []⟩]
      (chars ("\\left( 1 \\right)")) []).mpr
    ⟨⟨some (chars ("\\left( 1 \\right)")), []⟩, by simp, chars ("\\left( 1 \\right)"),
      rfl, by decide, by decide, rfl, by decide, by decide,
      Or.inr (Or.inr (Or.inl (by decide)))⟩

/-! ## Occurrence-preservation of the rewriting passes

The corrected C2 requires that the vector substitution can only ever meet
a boldsymbol spelling.  The wrap step and every substitution pass are
shown to preserve the absence of the mathbf and vec command names, so the
property only has to be assumed of the input equation. -/

theorem prefix_append_split (t a b : Str) (h : t <+: a ++ b) :
    t <+: a ∨ ∃ t₂, t = a ++ t₂ ∧ t₂ <+: b := by
  induction a generalizing t with
  | nil =>
    right
    exact ⟨t, rfl, by simpa using h⟩
  | cons c a' ih =>
    cases t with
    | nil => exact Or.inl (List.nil_prefix)
    | cons d t' =>
      rw [List.cons_append] at h
      obtain ⟨rfl, h'⟩ := List.cons_prefix_cons.mp h
      rcases ih t' h' with h1 | ⟨t₂, rfl, h2⟩
      · left
        obtain ⟨w, rfl⟩ := h1
        exact ⟨w, rfl⟩
      · right
        exact ⟨t₂, rfl, h2⟩

theorem infix_append_split (t a b : Str) (h : t <:+: a ++ b) :
    t <:+: a ∨ t <:+: b ∨
      ∃ t₁ t₂, t = t₁ ++ t₂ ∧ t₁ ≠ [] ∧ t₂ ≠ [] ∧ t₁ <:+ a ∧ t₂ <+: b := by
  induction a with
  | nil =>
    right; left
    simpa using h
  | cons c a' ih =>
    rw [List.cons_append] at h
    rcases List.infix_cons_iff.mp h with hpre | hinf
    · rcases prefix_append_split t (c :: a') b (by simpa using hpre) with h1 | ⟨t₂, rfl, h2⟩
      · exact Or.inl h1.isInfix
      · by_cases ht2 : t₂ = []
        · subst ht2
          exact Or.inl (by simp)
        · right; right
          exact ⟨c :: a', t₂, rfl, by simp, ht2, List.suffix_refl _, h2⟩
    · rcases ih hinf with h1 | h2 | ⟨t₁, t₂, rfl, hne1, hne2, hsuf, hpre2⟩
      · exact Or.inl (h1.trans (List.suffix_cons c a').isInfix)
      · exact Or.inr (Or.inl h2)
      · right; right
        exact ⟨t₁, t₂, rfl, hne1, hne2, hsuf.trans (List.suffix_cons c a'), hpre2⟩

theorem suffix_getLast_eq {t a : Str} (h : t <:+ a) (ht : t ≠ []) :
    t.getLast? = a.getLast? := by
  obtain ⟨u, rfl⟩ := h
  exact (List.getLast?_append_of_ne_nil u ht).symm

theorem prefix_head_eq {t b : Str} (h : t <+: b) (ht : t ≠ []) :
    t.head? = b.head? := by
  obtain ⟨w, rfl⟩ := h
  cases t with
  | nil => exact absurd rfl ht
  | cons c t' => rfl

theorem getLast_mem {t : Str} {c : Char} (h : t.getLast? = some c) : c ∈ t := by
  cases t with
  | nil => simp at h
  | cons d t' =>
    have h2 : (d :: t').getLast (by simp) = c := by
      rwa [List.getLast?_eq_getLast (d :: t') (by simp), Option.some.injEq] at h
    exact h2 ▸ List.getLast_mem (by simp)

theorem head_mem {t : Str} {c : Char} (h : t.head? = some c) : c ∈ t := by
  cases t with
  | nil => simp at h
  | cons d t' =>
    simp only [List.head?_cons, Option.some.injEq] at h
    simp [h]

theorem noBad_of_not_mem {bad s : Str} {c : Char} (hc : c ∈ bad) (hs : c ∉ s) :
    ¬ bad <:+: s := fun h => hs (h.subset hc)

/-- No occurrence of the pattern can straddle the boundary when the left
part ends in a character foreign to the pattern. -/
theorem straddle_left {bad a b : Str} {c : Char}
    (hc : a.getLast? = some c) (hcm : c ∉ bad) :
    ∀ t₁ t₂ : Str, bad = t₁ ++ t₂ → t₁ ≠ [] → t₂ ≠ [] → t₁ <:+ a → t₂ <+: b → False := by
  intro t₁ t₂ heq h1 h2 h3 h4
  have hlast : t₁.getLast? = some c := (suffix_getLast_eq h3 h1).trans hc
  exact hcm (heq ▸ List.mem_append_left t₂ (getLast_mem hlast))

/-- No occurrence of the pattern can straddle the boundary when the right
part begins with a character foreign to the pattern. -/
theorem straddle_right {bad a b : Str} {c : Char}
    (hc : b.head? = some c) (hcm : c ∉ bad) :
    ∀ t₁ t₂ : Str, bad = t₁ ++ t₂ → t₁ ≠ [] → t₂ ≠ [] → t₁ <:+ a → t₂ <+: b → False := by
  intro t₁ t₂ heq h1 h2 h3 h4
  have hhead : t₂.head? = some c := (prefix_head_eq h4 h2).trans hc
  exact hcm (heq ▸ List.mem_append_right t₁ (head_mem hhead))

theorem noBad_append {bad a b : Str}
    (ha : ¬ bad <:+: a) (hb : ¬ bad <:+: b)
    (hk : ∀ t₁ t₂ : Str, bad = t₁ ++ t₂ → t₁ ≠ [] → t₂ ≠ [] → t₁ <:+ a → t₂ <+: b → False) :
    ¬ bad <:+: a ++ b := by
  intro h
  rcases infix_append_split bad a b h with h1 | h2 | ⟨t₁, t₂, heq, hn1, hn2, hs, hp⟩
  · exact ha h1
  · exact hb h2
  · exact hk t₁ t₂ heq hn1 hn2 hs hp

theorem lookupColor_mem (scheme : List (Char × Str)) (c : Char) (col : Str)
    (h : lookupColor scheme c = some col) : ∃ k, (k, col) ∈ scheme := by
  induction scheme with
  | nil => simp [lookupColor] at h
  | cons p rest ih =>
    obtain ⟨k, v⟩ := p
    unfold lookupColor at h
    split_ifs at h with hk
    · simp only [Option.some.injEq] at h
      exact ⟨k, by simp [h]⟩
    · obtain ⟨k', hk'⟩ := ih h
      exact ⟨k', by simp [hk']⟩

theorem no_bs_of_all_alpha {v : Str} (h : v.all (fun c => c.isAlpha) = true) :
    '\\' ∉ v := by
  intro hmem
  have := List.all_eq_true.mp h '\\' hmem
  simp at this

/-- The two command names whose rewriting deletes characters. -/
def badMathbf : Str := chars ("\\mathbf")

def badVec : Str := chars ("\\vec")

/-- A string free of the mathbf and vec command names; on such strings
the vector substitution can only meet a boldsymbol spelling. -/
def noVecCmd (s : Str) : Prop := ¬ badMathbf <:+: s ∧ ¬ badVec <:+: s

theorem noVecCmd_suffix {u t : Str} (h : noVecCmd (u ++ t)) : noVecCmd t :=
  ⟨fun hx => h.1 (hx.trans (List.suffix_append u t).isInfix),
   fun hx => h.2 (hx.trans (List.suffix_append u t).isInfix)⟩

/-- The shape facts about the two bad literals used by the preservation
lemmas, stated once for both. -/
def badShape (bad : Str) : Prop :=
  bad.head? = some '\\' ∧ '\\' ∉ bad.tail ∧ '\x7d' ∉ bad ∧ '\x7b' ∉ bad ∧ '_' ∉ bad

theorem badMathbf_shape : badShape badMathbf := by
  refine ⟨rfl, ?_, ?_, ?_, ?_⟩ <;> decide

theorem badVec_shape : badShape badVec := by
  refine ⟨rfl, ?_, ?_, ?_, ?_⟩ <;> decide

theorem bs_mem_of_badShape {bad : Str} (h : badShape bad) : '\\' ∈ bad :=
  head_mem h.1

theorem noBad_colorWrap {bad col v : Str} (hsh : badShape bad)
    (h1 : ¬ bad <:+: chars ("\\color\x7b")) (h2 : ¬ bad <:+: chars ("\x7d\x7b"))
    (h3 : ¬ bad <:+: chars ("\x7d"))
    (hcol : '\\' ∉ col) (hv : '\\' ∉ v) :
    ¬ bad <:+: colorWrap col v := by
  unfold colorWrap
  have n1 : ¬ bad <:+: chars ("\\color\x7b") ++ col :=
    noBad_append h1 (noBad_of_not_mem (bs_mem_of_badShape hsh) hcol)
      (straddle_left (by decide) hsh.2.2.2.1)
  have n2 : ¬ bad <:+: chars ("\\color\x7b") ++ col ++ chars ("\x7d\x7b") :=
    noBad_append n1 h2 (straddle_right (by decide) hsh.2.2.1)
  have n3 : ¬ bad <:+: chars ("\\color\x7b") ++ col ++ chars ("\x7d\x7b") ++ v := by
    refine noBad_append n2 (noBad_of_not_mem (bs_mem_of_badShape hsh) hv) ?_
    refine straddle_left ?_ hsh.2.2.2.1
    exact List.getLast?_append_of_ne_nil _ (by decide)
  exact noBad_append n3 h3 (straddle_right (by decide) hsh.2.2.1)

theorem noBad_vectorRepl {bad col v : Str} (hsh : badShape bad)
    (h1 : ¬ bad <:+: chars ("\\boldsymbol\x7b\\color\x7b"))
    (h2 : ¬ bad <:+: chars ("\x7d\x7b")) (h3 : ¬ bad <:+: chars ("\x7d\x7d"))
    (hcol : '\\' ∉ col) (hv : '\\' ∉ v) :
    ¬ bad <:+: vectorRepl col v := by
  unfold vectorRepl
  have n1 : ¬ bad <:+: chars ("\\boldsymbol\x7b\\color\x7b") ++ col :=
    noBad_append h1 (noBad_of_not_mem (bs_mem_of_badShape hsh) hcol)
      (straddle_left (by decide) hsh.2.2.2.1)
  have n2 : ¬ bad <:+: chars ("\\boldsymbol\x7b\\color\x7b") ++ col ++ chars ("\x7d\x7b") :=
    noBad_append n1 h2 (straddle_right (by decide) hsh.2.2.1)
  have n3 : ¬ bad <:+: chars ("\\boldsymbol\x7b\\color\x7b") ++ col ++ chars ("\x7d\x7b") ++ v := by
    refine noBad_append n2 (noBad_of_not_mem (bs_mem_of_badShape hsh) hv) ?_
    refine straddle_left ?_ hsh.2.2.2.1
    exact List.getLast?_append_of_ne_nil _ (by decide)
  exact noBad_append n3 h3 (straddle_right (by decide) hsh.2.2.1)

theorem noBad_subscriptRepl {bad col base subTxt : Str} (hsh : badShape bad)
    (h1 : ¬ bad <:+: chars ("\\color\x7b")) (h2 : ¬ bad <:+: chars ("\x7d\x7b"))
    (h3 : ¬ bad <:+: chars ("\x7d_"))
    (hcol : '\\' ∉ col) (hbase : '\\' ∉ base) (hsubTxt : '\\' ∉ subTxt) :
    ¬ bad <:+: subscriptRepl col base subTxt := by
  unfold subscriptRepl
  have n1 : ¬ bad <:+: chars ("\\color\x7b") ++ col :=
    noBad_append h1 (noBad_of_not_mem (bs_mem_of_badShape hsh) hcol)
      (straddle_left (by decide) hsh.2.2.2.1)
  have n2 : ¬ bad <:+: chars ("\\color\x7b") ++ col ++ chars ("\x7d\x7b") :=
    noBad_append n1 h2 (straddle_right (by decide) hsh.2.2.1)
  have n3 : ¬ bad <:+: chars ("\\color\x7b") ++ col ++ chars ("\x7d\x7b") ++ base := by
    refine noBad_append n2 (noBad_of_not_mem (bs_mem_of_badShape hsh) hbase) ?_
    refine straddle_left ?_ hsh.2.2.2.1
    exact List.getLast?_append_of_ne_nil _ (by decide)
  have n4 : ¬ bad <:+: chars ("\\color\x7b") ++ col ++ chars ("\x7d\x7b") ++ base
      ++ chars ("\x7d_") :=
    noBad_append n3 h3 (straddle_right (by decide) hsh.2.2.1)
  refine noBad_append n4 (noBad_of_not_mem (bs_mem_of_badShape hsh) hsubTxt) ?_
  refine straddle_left ?_ hsh.2.2.2.2
  exact List.getLast?_append_of_ne_nil _ (by decide)

theorem noBad_wrapAlign {bad s : Str}
    (h1 : ¬ bad <:+: chars ("\\begin\x7balign*\x7d\n"))
    (h2 : ¬ bad <:+: chars ("\n\\end\x7balign*\x7d"))
    (hnl : '\n' ∉ bad) (hs : ¬ bad <:+: s) :
    ¬ bad <:+: wrapAlign s := by
  unfold wrapAlign
  have n1 : ¬ bad <:+: chars ("\\begin\x7balign*\x7d\n") ++ s :=
    noBad_append h1 hs (straddle_left (by decide) hnl)
  exact noBad_append n1 h2 (straddle_right (by decide) hnl)

/-- A rewriting pass whose replacements all begin with a backslash leaves
the head of the string either copied from the input or a backslash. -/
theorem rw1_head (m : Option Char → Str → Option (Str × Str × Str))
    (hr : ∀ prev s t r a, m prev s = some (t, r, a) → r.head? = some '\\')
    (fuel : Nat) (prev : Option Char) (s : Str) :
    (rw1 m fuel prev s).head? = s.head? ∨ (rw1 m fuel prev s).head? = some '\\' := by
  match fuel with
  | 0 => exact Or.inl rfl
  | n + 1 =>
    match s with
    | [] => exact Or.inl rfl
    | c :: rest =>
      rw [rw1]
      cases hms : m prev (c :: rest) with
      | none => exact Or.inl rfl
      | some tra =>
        obtain ⟨t, r, a⟩ := tra
        right
        have hh := hr _ _ _ _ _ hms
        cases r with
        | nil => simp at hh
        | cons r0 r' =>
          simp only [List.head?_cons, Option.some.injEq] at hh
          simp [hh]

/-- A backslash-free prefix of the output of such a pass is a prefix of
the input: replacements, all starting with a backslash, cannot help to
match it. -/
theorem prefix_rw1_bsfree (m : Option Char → Str → Option (Str × Str × Str))
    (hr : ∀ prev s t r a, m prev s = some (t, r, a) → r.head? = some '\\') :
    ∀ (fuel : Nat) (prev : Option Char) (s u : Str), '\\' ∉ u →
      u <+: rw1 m fuel prev s → u <+: s := by
  intro fuel
  induction fuel with
  | zero => intro prev s u hu h; exact h
  | succ n ih =>
    intro prev s u hu h
    match s with
    | [] =>
      rw [rw1] at h
      simpa using h
    | c :: rest =>
      rw [rw1] at h
      cases hms : m prev (c :: rest) with
      | none =>
        rw [hms] at h
        cases u with
        | nil => exact List.nil_prefix
        | cons d u' =>
          obtain ⟨rfl, h'⟩ := List.cons_prefix_cons.mp h
          have hu' : '\\' ∉ u' := fun hm' => hu (List.mem_cons_of_mem _ hm')
          exact List.cons_prefix_cons.mpr ⟨rfl, ih (some d) rest u' hu' h'⟩
      | some tra =>
        obtain ⟨t, r, a⟩ := tra
        rw [hms] at h
        have hh := hr _ _ _ _ _ hms
        rcases prefix_append_split u r _ h with h1 | ⟨t₂, rfl, h2⟩
        · cases u with
          | nil => exact List.nil_prefix
          | cons d u' =>
            cases r with
            | nil => simp at hh
            | cons r0 r' =>
              obtain ⟨heq, _⟩ := List.cons_prefix_cons.mp h1
              simp only [List.head?_cons, Option.some.injEq] at hh
              exact (hu (by simp [heq, hh])).elim
        · cases r with
          | nil => simp at hh
          | cons r0 r' =>
            simp only [List.head?_cons, Option.some.injEq] at hh
            exact (hu (by simp [hh])).elim

/-- A rewriting pass whose replacements are free of the pattern, begin
with a backslash and end with a closing brace preserves the absence of a
backslash-led pattern. -/
theorem rw1_noBad (m : Option Char → Str → Option (Str × Str × Str)) (bad : Str)
    (hsh : badShape bad)
    (hm : ∀ prev s t r a, m prev s = some (t, r, a) →
      s = t ++ a ∧ ¬ bad <:+: r ∧ r.head? = some '\\' ∧ r.getLast? = some '\x7d') :
    ∀ (fuel : Nat) (prev : Option Char) (s : Str),
      ¬ bad <:+: s → ¬ bad <:+: rw1 m fuel prev s := by
  intro fuel
  induction fuel with
  | zero => intro prev s hs; exact hs
  | succ n ih =>
    intro prev s hs
    match s with
    | [] =>
      rw [rw1]
      intro h
      have : bad = [] := by simpa using h
      rw [this] at hsh
      simp [badShape] at hsh
    | c :: rest =>
      rw [rw1]
      cases hms : m prev (c :: rest) with
      | none =>
        intro h
        rcases List.infix_cons_iff.mp h with hpre | hinf
        · cases hbad : bad with
          | nil => rw [hbad] at hsh; simp [badShape] at hsh
          | cons b0 btail =>
            rw [hbad] at hsh hpre
            obtain ⟨hb0, hb'⟩ := List.cons_prefix_cons.mp hpre
            have hb0' : b0 = '\\' := by
              have := hsh.1
              simpa using this
            have hbt : '\\' ∉ btail := by
              have := hsh.2.1
              simpa using this
            have hpr : btail <+: rest :=
              prefix_rw1_bsfree m (fun pv sv tv rv av hf => (hm pv sv tv rv av hf).2.2.1)
                n (some c) rest btail hbt hb'
            exact hs (hbad ▸ (List.cons_prefix_cons.mpr ⟨hb0, hpr⟩).isInfix)
        · have hrest : ¬ bad <:+: rest :=
            fun hx => hs (hx.trans (List.suffix_cons c rest).isInfix)
          exact ih (some c) rest hrest hinf
      | some tra =>
        obtain ⟨t, r, a⟩ := tra
        obtain ⟨hsplit, hnr, hrh, hrl⟩ := hm _ _ _ _ _ hms
        have ha : ¬ bad <:+: a := by
          intro hx
          exact hs (hsplit ▸ hx.trans (List.suffix_append t a).isInfix)
        refine noBad_append hnr (ih _ a ha) ?_
        exact straddle_left hrl hsh.2.2.1

/-- The subsequence-preservation lemma, refined with an invariant carried
along suffixes of the scanned string: the matcher only needs to reproduce
its matched text on strings satisfying the invariant. -/
theorem rw1_sublist_inv (m : Option Char → Str → Option (Str × Str × Str))
    (P : Str → Prop) (hsuf : ∀ u t : Str, P (u ++ t) → P t)
    (hm : ∀ prev s t r a, P s → m prev s = some (t, r, a) →
      s = t ++ a ∧ t ≠ [] ∧ List.Sublist t r) :
    ∀ fuel (prev : Option Char) (s : Str), P s → s.length ≤ fuel →
      List.Sublist s (rw1 m fuel prev s) := by
  intro fuel
  induction fuel with
  | zero =>
    intro prev s hP h
    exact List.Sublist.refl s
  | succ n ih =>
    intro prev s hP hlen
    match s with
    | [] => simp [rw1]
    | c :: rest =>
      rw [rw1]
      cases hms : m prev (c :: rest) with
      | none =>
        have hPrest : P rest := hsuf [c] rest hP
        exact (ih (some c) rest hPrest
          (by simpa using Nat.le_of_succ_le_succ hlen)).cons₂ c
      | some tra =>
        obtain ⟨t, r, a⟩ := tra
        obtain ⟨hsplit, hne, htr⟩ := hm _ _ _ _ _ hP hms
        have hPa : P a := hsuf t a (hsplit ▸ hP)
        have hlt : a.length ≤ n := by
          have h1 : (c :: rest).length = t.length + a.length := by
            rw [hsplit, List.length_append]
          have h2 : 1 ≤ t.length := by
            cases t with
            | nil => exact absurd rfl hne
            | cons _ _ => simp
          simp only [List.length_cons] at hlen h1
          omega
        have h3 := htr.append
          (ih (match t.getLast? with | some x => some x | none => prev) a hPa hlt)
        rw [hsplit]
        exact h3

/-- On a string free of the mathbf and vec command names, every fire of
the vector matcher is a boldsymbol spelling, whose replacement keeps the
matched text as a subsequence. -/
theorem vectorMatcher_contract_noVec (v col : Str) :
    ∀ prev s t r a, noVecCmd s → vectorMatcher v col prev s = some (t, r, a) →
      s = t ++ a ∧ t ≠ [] ∧ List.Sublist t r := by
  intro prev s t r a hP h
  unfold vectorMatcher at h
  cases h1 : tryLit (vecLit (chars ("boldsymbol")) v) (vectorRepl col v) s with
  | some res =>
    rw [h1] at h
    simp only [Option.some.injEq] at h
    subst h
    unfold tryLit at h1
    split_ifs at h1 with hp
    simp only [Option.some.injEq] at h1
    obtain ⟨rfl, rfl, rfl⟩ := h1
    refine ⟨isPrefixOf_eq_append hp, by simp [vecLit], ?_⟩
    have heq : vecLit (chars ("boldsymbol")) v
        = chars ("\\boldsymbol\x7b") ++ (v ++ chars ("\x7d")) := by
      simp [vecLit, chars]
    have hrepl : List.Sublist (chars ("\\boldsymbol\x7b") ++ (v ++ chars ("\x7d")))
        (chars ("\\boldsymbol\x7b") ++ (chars ("\\color\x7b") ++ ((col ++ chars ("\x7d\x7b"))
          ++ (v ++ chars ("\x7d\x7d"))))) := by
      refine (List.Sublist.refl _).append ?_
      refine List.Sublist.trans ?_ (List.sublist_append_right _ _)
      refine List.Sublist.trans ?_ (List.sublist_append_right _ _)
      exact (List.Sublist.refl v).append (by decide)
    rw [heq]
    refine hrepl.trans ?_
    unfold vectorRepl
    simp [chars, List.append_assoc]
  | none =>
    rw [h1] at h
    exfalso
    cases h2 : tryLit (vecLit (chars ("mathbf")) v) (vectorRepl col v) s with
    | some res =>
      unfold tryLit at h2
      split_ifs at h2 with hp
      have hpre : badMathbf <+: s := by
        refine List.IsPrefix.trans ?_ (List.isPrefixOf_iff_prefix.mp hp)
        have : vecLit (chars ("mathbf")) v
            = chars ("\\mathbf\x7b") ++ (v ++ chars ("\x7d")) := by
          simp [vecLit, chars]
        rw [this]
        refine List.IsPrefix.trans ?_ (List.prefix_append _ _)
        decide
      exact hP.1 hpre.isInfix
    | none =>
      rw [h2] at h
      unfold tryLit at h
      split_ifs at h with hp
      have hpre : badVec <+: s := by
        refine List.IsPrefix.trans ?_ (List.isPrefixOf_iff_prefix.mp hp)
        have : vecLit (chars ("vec")) v
            = chars ("\\vec\x7b") ++ (v ++ chars ("\x7d")) := by
          simp [vecLit, chars]
        rw [this]
        refine List.IsPrefix.trans ?_ (List.prefix_append _ _)
        decide
      exact hP.2 hpre.isInfix

theorem colorWrap_head (col v : Str) : (colorWrap col v).head? = some '\\' := rfl

theorem colorWrap_last (col v : Str) : (colorWrap col v).getLast? = some '\x7d' := by
  unfold colorWrap
  rw [List.getLast?_append_of_ne_nil _ (by decide)]
  rfl

theorem subscriptRepl_head (col base subTxt : Str) :
    (subscriptRepl col base subTxt).head? = some '\\' := rfl

theorem vectorRepl_head (col v : Str) : (vectorRepl col v).head? = some '\\' := rfl

theorem vectorRepl_last (col v : Str) : (vectorRepl col v).getLast? = some '\x7d' := by
  unfold vectorRepl
  rw [List.getLast?_append_of_ne_nil _ (by decide)]
  rfl

/-- The per-pass facts needed by the preservation lemma, for both bad
literals at once. -/
def replFacts (m : Option Char → Str → Option (Str × Str × Str)) : Prop :=
  ∀ prev s t r a, m prev s = some (t, r, a) →
    s = t ++ a ∧ ¬ badMathbf <:+: r ∧ ¬ badVec <:+: r
      ∧ r.head? = some '\\' ∧ r.getLast? = some '\x7d'

theorem applySub_noVec (m : Option Char → Str → Option (Str × Str × Str))
    (hm : replFacts m) (s : Str) (hs : noVecCmd s) : noVecCmd (applySub m s) := by
  constructor
  · exact rw1_noBad m badMathbf badMathbf_shape
      (fun prev s' t r a hf =>
        ⟨(hm prev s' t r a hf).1, (hm prev s' t r a hf).2.1,
         (hm prev s' t r a hf).2.2.2.1, (hm prev s' t r a hf).2.2.2.2⟩)
      s.length none s hs.1
  · exact rw1_noBad m badVec badVec_shape
      (fun prev s' t r a hf =>
        ⟨(hm prev s' t r a hf).1, (hm prev s' t r a hf).2.2.1,
         (hm prev s' t r a hf).2.2.2.1, (hm prev s' t r a hf).2.2.2.2⟩)
      s.length none s hs.2

theorem singleMatcher_replFacts (v col : Str)
    (hcol : '\\' ∉ col) (hv : '\\' ∉ v) : replFacts (singleMatcher v col) := by
  intro prev s t r a h
  unfold singleMatcher at h
  split_ifs at h with hc
  simp only [Option.some.injEq, Prod.mk.injEq] at h
  obtain ⟨rfl, rfl, rfl⟩ := h
  simp only [Bool.and_eq_true] at hc
  refine ⟨isPrefixOf_eq_append hc.1.1.2,
    noBad_colorWrap badMathbf_shape (by decide) (by decide) (by decide) hcol hv,
    noBad_colorWrap badVec_shape (by decide) (by decide) (by decide) hcol hv,
    colorWrap_head col v, colorWrap_last col v⟩

theorem subscriptMatcher_replFacts (base subTxt col : Str)
    (hcol : '\\' ∉ col) (hbase : '\\' ∉ base) (hst : '\\' ∉ subTxt)
    (hne : subTxt ≠ []) (hlast : subTxt.getLast? = some '\x7d') :
    replFacts (subscriptMatcher base subTxt col) := by
  intro prev s t r a h
  unfold subscriptMatcher at h
  split_ifs at h with hc
  simp only [Option.some.injEq, Prod.mk.injEq] at h
  obtain ⟨rfl, rfl, rfl⟩ := h
  refine ⟨isPrefixOf_eq_append hc,
    noBad_subscriptRepl badMathbf_shape (by decide) (by decide) (by decide) hcol hbase hst,
    noBad_subscriptRepl badVec_shape (by decide) (by decide) (by decide) hcol hbase hst,
    subscriptRepl_head col base subTxt, ?_⟩
  unfold subscriptRepl
  rw [List.getLast?_append_of_ne_nil _ hne]
  exact hlast

theorem vectorMatcher_replFacts (v col : Str)
    (hcol : '\\' ∉ col) (hv : '\\' ∉ v) : replFacts (vectorMatcher v col) := by
  intro prev s t r a h
  have hfacts : r = vectorRepl col v ∧ s = t ++ a := by
    unfold vectorMatcher at h
    cases h1 : tryLit (vecLit (chars ("boldsymbol")) v) (vectorRepl col v) s with
    | some res =>
      rw [h1] at h
      simp only [Option.some.injEq] at h
      subst h
      unfold tryLit at h1
      split_ifs at h1 with hp
      simp only [Option.some.injEq] at h1
      obtain ⟨rfl, rfl, rfl⟩ := h1
      exact ⟨rfl, isPrefixOf_eq_append hp⟩
    | none =>
      rw [h1] at h
      cases h2 : tryLit (vecLit (chars ("mathbf")) v) (vectorRepl col v) s with
      | some res =>
        rw [h2] at h
        simp only [Option.some.injEq] at h
        subst h
        unfold tryLit at h2
        split_ifs at h2 with hp
        simp only [Option.some.injEq] at h2
        obtain ⟨rfl, rfl, rfl⟩ := h2
        exact ⟨rfl, isPrefixOf_eq_append hp⟩
      | none =>
        rw [h2] at h
        unfold tryLit at h
        split_ifs at h with hp
        simp only [Option.some.injEq] at h
        obtain ⟨rfl, rfl, rfl⟩ := h
        exact ⟨rfl, isPrefixOf_eq_append hp⟩
  obtain ⟨rfl, hsplit⟩ := hfacts
  exact ⟨hsplit,
    noBad_vectorRepl badMathbf_shape (by decide) (by decide) (by decide) hcol hv,
    noBad_vectorRepl badVec_shape (by decide) (by decide) (by decide) hcol hv,
    vectorRepl_head col v, vectorRepl_last col v⟩

theorem plainSubscriptVar_spec (v : Str) (h : plainSubscriptVar v = true) :
    ∃ base inner, splitUnderscore v = some (base, '\x7b' :: (inner ++ ['\x7d']))
      ∧ base ≠ [] ∧ base.all (fun c => c.isAlpha) = true
      ∧ inner ≠ [] ∧ inner.all (fun c => c.isAlpha) = true := by
  unfold plainSubscriptVar at h
  cases hsp : splitUnderscore v with
  | none => rw [hsp] at h; simp at h
  | some bt =>
    obtain ⟨base, subTxt⟩ := bt
    rw [hsp] at h
    cases subTxt with
    | nil => simp at h
    | cons c0 rest =>
      simp only at h
      cases hsb : splitAtBrace rest with
      | none =>
        rw [hsb] at h
        simp at h
      | some ia =>
        obtain ⟨inner, after⟩ := ia
        rw [hsb] at h
        simp only [Bool.and_eq_true] at h
        obtain ⟨⟨⟨hc0, hbne⟩, hbal⟩, ⟨hae, hine⟩, hial⟩ := h
        have hc0' : c0 = '\x7b' := by simpa using hc0
        have hbne' : base ≠ [] := by simpa using hbne
        have hine' : inner ≠ [] := by simpa using hine
        have hae' : after = [] := by simpa using hae
        obtain ⟨hrest, _⟩ := splitAtBrace_sound rest inner after hsb
        subst hc0'
        refine ⟨base, inner, ?_, hbne', hbal, hine', hial⟩
        subst hae'
        subst hrest
        simp [hsp]

/-! ## The substitution phases preserve the absence of the two command
names and keep the input as a subsequence -/

theorem applyVar_single_noVec (scheme : List (Char × Str)) (s v : Str)
    (hcol : ∀ p ∈ scheme, '\\' ∉ p.2) (hv : v.all (fun c => c.isAlpha) = true)
    (hs : noVecCmd s) : noVecCmd (applyVar .single scheme s v) := by
  cases v with
  | nil => exact hs
  | cons c w =>
    simp only [applyVar]
    cases hcl : lookupColor scheme c with
    | none => exact hs
    | some col =>
      obtain ⟨k, hk⟩ := lookupColor_mem scheme c col hcl
      exact applySub_noVec _
        (singleMatcher_replFacts (c :: w) col (hcol (k, col) hk) (no_bs_of_all_alpha hv))
        s hs

theorem applyVar_subscript_noVec (scheme : List (Char × Str)) (s v : Str)
    (hcol : ∀ p ∈ scheme, '\\' ∉ p.2) (hv : plainSubscriptVar v = true)
    (hs : noVecCmd s) : noVecCmd (applyVar .subscript scheme s v) := by
  cases v with
  | nil => exact hs
  | cons c w =>
    simp only [applyVar]
    cases hcl : lookupColor scheme c with
    | none => exact hs
    | some col =>
      obtain ⟨k, hk⟩ := lookupColor_mem scheme c col hcl
      obtain ⟨base, inner, hspl, hbne, hbal, hine, hial⟩ := plainSubscriptVar_spec _ hv
      rw [hspl]
      have hstne : ('\x7b' :: (inner ++ ['\x7d'])) ≠ [] := by simp
      have hstlast : ('\x7b' :: (inner ++ ['\x7d'])).getLast? = some '\x7d' := by
        rw [show '\x7b' :: (inner ++ ['\x7d']) = ('\x7b' :: inner) ++ ['\x7d'] from rfl]
        exact List.getLast?_concat _
      have hstbs : '\\' ∉ '\x7b' :: (inner ++ ['\x7d']) := by
        intro hmem
        rcases List.mem_cons.mp hmem with heq | hmem2
        · simp at heq
        · rcases List.mem_append.mp hmem2 with hmem3 | hmem4
          · exact (no_bs_of_all_alpha hial) hmem3
          · simp at hmem4
      exact applySub_noVec _
        (subscriptMatcher_replFacts base _ col (hcol (k, col) hk)
          (no_bs_of_all_alpha hbal) hstbs hstne hstlast) s hs

theorem applyVar_vector_noVec (scheme : List (Char × Str)) (s v : Str)
    (hcol : ∀ p ∈ scheme, '\\' ∉ p.2) (hv : v.all (fun c => c.isAlpha) = true)
    (hs : noVecCmd s) : noVecCmd (applyVar .vector scheme s v) := by
  cases v with
  | nil => exact hs
  | cons c w =>
    simp only [applyVar]
    cases hcl : lookupColor scheme c with
    | none => exact hs
    | some col =>
      obtain ⟨k, hk⟩ := lookupColor_mem scheme c col hcl
      exact applySub_noVec _
        (vectorMatcher_replFacts (c :: w) col (hcol (k, col) hk) (no_bs_of_all_alpha hv))
        s hs

theorem applyVar_vector_sublist_noVec (scheme : List (Char × Str)) (s v : Str)
    (hs : noVecCmd s) : List.Sublist s (applyVar .vector scheme s v) := by
  cases v with
  | nil => exact List.Sublist.refl s
  | cons c w =>
    simp only [applyVar]
    cases hcl : lookupColor scheme c with
    | none => exact List.Sublist.refl s
    | some col =>
      exact rw1_sublist_inv _ noVecCmd (fun u t => noVecCmd_suffix)
        (vectorMatcher_contract_noVec (c :: w) col) s.length none s hs (Nat.le_refl _)

theorem foldl_sublist_preserve_inv (P : Str → Prop) (f : Str → Str → Str)
    (vs : List Str)
    (hf : ∀ v ∈ vs, ∀ s, P s → P (f s v) ∧ List.Sublist s (f s v)) :
    ∀ s, P s → P (vs.foldl f s) ∧ List.Sublist s (vs.foldl f s) := by
  induction vs with
  | nil => intro s hP; exact ⟨hP, List.Sublist.refl s⟩
  | cons v vs ih =>
    intro s hP
    obtain ⟨hP1, hS1⟩ := hf v (by simp) s hP
    obtain ⟨hP2, hS2⟩ := ih (fun w hw s' hs' => hf w (by simp [hw]) s' hs') (f s v) hP1
    exact ⟨hP2, hS1.trans hS2⟩

theorem foldl_preserve (P : Str → Prop) (f : Str → Str → Str) (vs : List Str)
    (hf : ∀ v ∈ vs, ∀ s, P s → P (f s v)) :
    ∀ s, P s → P (vs.foldl f s) := by
  induction vs with
  | nil => intro s hP; exact hP
  | cons v vs ih =>
    intro s hP
    exact ih (fun w hw s' hs' => hf w (by simp [hw]) s' hs') (f s v) (hf v (by simp) s hP)

theorem applyRole_single_noVec (scheme : List (Char × Str)) (vs : List Str) (s : Str)
    (hcol : ∀ p ∈ scheme, '\\' ∉ p.2)
    (hvs : ∀ v ∈ vs, v.all (fun c => c.isAlpha) = true)
    (hs : noVecCmd s) : noVecCmd (applyRole .single scheme vs s) :=
  foldl_preserve noVecCmd _ _
    (fun v hv s' hs' => applyVar_single_noVec scheme s' v hcol
      (hvs v ((mem_sortLenDesc v vs).mp hv)) hs') s hs

theorem applyRole_subscript_noVec (scheme : List (Char × Str)) (vs : List Str) (s : Str)
    (hcol : ∀ p ∈ scheme, '\\' ∉ p.2)
    (hvs : ∀ v ∈ vs, plainSubscriptVar v = true)
    (hs : noVecCmd s) : noVecCmd (applyRole .subscript scheme vs s) :=
  foldl_preserve noVecCmd _ _
    (fun v hv s' hs' => applyVar_subscript_noVec scheme s' v hcol
      (hvs v ((mem_sortLenDesc v vs).mp hv)) hs') s hs

theorem applyRole_vector_sublist_noVec (scheme : List (Char × Str)) (vs : List Str)
    (s : Str) (hcol : ∀ p ∈ scheme, '\\' ∉ p.2)
    (hvs : ∀ v ∈ vs, v.all (fun c => c.isAlpha) = true)
    (hs : noVecCmd s) : List.Sublist s (applyRole .vector scheme vs s) :=
  (foldl_sublist_preserve_inv noVecCmd _ _
    (fun v hv s' hs' =>
      ⟨applyVar_vector_noVec scheme s' v hcol (hvs v ((mem_sortLenDesc v vs).mp hv)) hs',
       applyVar_vector_sublist_noVec scheme s' v hs'⟩) s hs).2

/-- C2 (amended): for every equation string E free of the mathbf and vec
command spellings (whose recoloring would rewrite them to boldsymbol,
deleting characters; note the extractor normalizes both to boldsymbol
before recoloring), with alphabetic bare and vector variable names,
braced alphabetic subscripts, backslash-free colors, and greek names
without a scheme entry (in the program greek names begin with a
backslash, which is never a scheme key), the output of colorize_equation
contains every literal character of E verbatim and in original order: the
rewrite, including the boldsymbol vector recoloring, only inserts
wrapping syntax.  The command-name freedom is shown to be preserved by
the wrap step and by every substitution pass, so the vector substitution
can only ever meet a boldsymbol spelling. -/
theorem c2_amended (E : Str) (vars : Variables) (scheme : List (Char × Str))
    (hEm : ¬ chars ("\\mathbf") <:+: E) (hEv : ¬ chars ("\\vec") <:+: E)
    (hcol : ∀ p ∈ scheme, '\\' ∉ p.2)
    (hsingle : ∀ v ∈ vars.single, v.all (fun c => c.isAlpha) = true)
    (hsub : ∀ v ∈ vars.subscript, plainSubscriptVar v = true)
    (hgreek : ∀ v ∈ vars.greek, headColor scheme v = none)
    (hvec : ∀ v ∈ vars.vector, v.all (fun c => c.isAlpha) = true) :
    List.Sublist E (colorize_equation E vars scheme) := by
  unfold colorize_equation applyAllRoles
  have h0S : List.Sublist E (if hasEnvB E then E else wrapAlign E) := by
    split_ifs
    · exact List.Sublist.refl E
    · unfold wrapAlign
      simp [List.append_assoc]
  have h0P : noVecCmd (if hasEnvB E then E else wrapAlign E) := by
    split_ifs
    · exact ⟨hEm, hEv⟩
    · exact ⟨noBad_wrapAlign (by decide) (by decide) (by decide) hEm,
             noBad_wrapAlign (by decide) (by decide) (by decide) hEv⟩
  have h1S := applyRole_single_sublist scheme vars.single
    (if hasEnvB E then E else wrapAlign E)
  have h1P := applyRole_single_noVec scheme vars.single
    (if hasEnvB E then E else wrapAlign E) hcol hsingle h0P
  have h2S := applyRole_subscript_sublist scheme vars.subscript
    (applyRole .single scheme vars.single (if hasEnvB E then E else wrapAlign E))
  have h2P := applyRole_subscript_noVec scheme vars.subscript
    (applyRole .single scheme vars.single (if hasEnvB E then E else wrapAlign E))
    hcol hsub h1P
  rw [applyRole_skip .greek scheme vars.greek _ hgreek]
  have h4S := applyRole_vector_sublist_noVec scheme vars.vector
    (applyRole .subscript scheme vars.subscript
      (applyRole .single scheme vars.single (if hasEnvB E then E else wrapAlign E)))
    hcol hvec h2P
  exact h0S.trans (h1S.trans (h2S.trans h4S))

theorem c2_amended_witness :
    List.Sublist (chars ("y = \\boldsymbol\x7bx\x7d"))
      (colorize_equation (chars ("y = \\boldsymbol\x7bx\x7d"))
        (identify_variables (chars ("y = \\boldsymbol\x7bx\x7d")))
        [('x', chars ("#FF0000")), ('y', chars ("#00FF00"))]) :=
  c2_amended _ _ _ (by decide) (by decide) (by decide) (by decide) (by decide)
    (by decide) (by decide)
